import Mathlib

/-!
# Verification of `smtfmt.py`, an S-expression (SMT-LIB) formatter

Shallow embedding of `src/smtfmt.py`.  Python strings are modelled as
`List Char`; a Python parser `f(s) -> (success, output, value)` becomes a
Lean function `List Char → Bool × List Char × Value`, where `Value` mirrors
the dynamically-typed Python values flowing through the combinators
(`None`, `int`, `str`, `list`).  The recursive grammar productions
(`expr`/`sexpr`) and the repetition combinators are given an explicit fuel
parameter so that all definitions are structurally recursive and hence
executable by the kernel; a totality theorem below (claim C8) shows that the
fuel used by the driver is always sufficient.  The concrete regular
expressions of the source are translated into hand-written scanners whose
behaviour matches Python's backtracking `re.match` on the given patterns.
Whitespace sets model Python's ASCII/Latin-1 whitespace (full Unicode
whitespace beyond Latin-1 is not modelled; no claim depends on it).
-/

/-- Shorthand turning a Lean string literal into the `List Char` our
embedding works with. -/
def chars (s : String) : List Char := s.data

/-- The whitespace characters recognised by Python's `str.isspace`,
`str.strip` and (for Latin-1 text) by the regex class `\s`. -/
def pyWsChars : List Char :=
  [' ', '\t', '\n', '\r', '\x0b', '\x0c',
   '\x1c', '\x1d', '\x1e', '\x1f', '\x85', '\xa0']

/-- `c` is a Python whitespace character. -/
def pyIsSpace (c : Char) : Bool := pyWsChars.contains c

/-- Python `str.lstrip()`. -/
def pyLstrip (s : List Char) : List Char := s.dropWhile pyIsSpace

/-- Python `str.rstrip()`. -/
def pyRstrip (s : List Char) : List Char :=
  (s.reverse.dropWhile pyIsSpace).reverse

/-- Python `str.strip()`. -/
def pyStrip (s : List Char) : List Char := pyRstrip (pyLstrip s)

/-- The dynamically-typed values produced by the parsers of `smtfmt.py`:
Python `None`, `int` (blank-line counts), `str` (atom/comment text) and
`list` (sequences of sub-values). -/
inductive Value where
  | none : Value
  | int (n : Nat) : Value
  | str (s : List Char) : Value
  | list (l : List Value) : Value

/-- Python truthiness of a `Value` (`bool(v)`): `None`, `0`, `""` and `[]`
are falsy. -/
def Value.truthy : Value → Bool
  | .none => false
  | .int n => n != 0
  | .str s => !s.isEmpty
  | .list l => !l.isEmpty

/-- Is this value Python `None`? (`v is None`). -/
def Value.isVNone : Value → Bool
  | .none => true
  | _ => false

/-- Extract the string carried by a `Value`; non-`str` values (on which the
Python code would raise a `TypeError`, a situation unreachable from parser
output) are mapped to the empty string. -/
def Value.asStr : Value → List Char
  | .str s => s
  | _ => []

/-- A parser in the sense of `smtfmt.py`:
`f(input: str) -> (success: bool, output: str, value)`, wrapped in `Option`
where `Option.none` signals fuel exhaustion of the embedding (i.e. a
computation on which the Python original would not have terminated; the
totality theorem for claim C8 shows this never happens at the fuel the
driver supplies). -/
abbrev FParser := List Char → Option (Bool × List Char × Value)

/-- Lift a total (non-recursive) parser to an `FParser`. -/
def liftP (p : List Char → Bool × List Char × Value) : FParser :=
  fun s => some (p s)

/-! ## Regex scanners

Each of the anchored regular expressions appearing in `smtfmt.py` is
translated into an explicit scanner.  A scanner for a pattern returns
`some (matched, rest)` on success. -/

/-- Greedy `\s*`: drop the maximal whitespace prefix (regex `\s*` in a
pattern whose continuation starts with a non-whitespace character can only
match maximally, so no backtracking is needed). -/
def skipWs (s : List Char) : List Char := s.dropWhile pyIsSpace

/-- `lparen`: regex `^\s*\(`, value `None`. -/
def lparenP (s : List Char) : Bool × List Char × Value :=
  match skipWs s with
  | '(' :: rest => (true, rest, Value.none)
  | _ => (false, s, Value.none)

/-- `rparen`: regex `^\s*\)`, value `None`. -/
def rparenP (s : List Char) : Bool × List Char × Value :=
  match skipWs s with
  | ')' :: rest => (true, rest, Value.none)
  | _ => (false, s, Value.none)

/-- `comment`: regex `^\s*;.*` with value `[";", m.group(0).strip()[1:]]`.
`.*` matches greedily up to (excluding) the next `'\n'`; stripping the match
leaves `';'` followed by the comment body with trailing whitespace removed,
and `[1:]` drops the `';'`. -/
def commentP (s : List Char) : Bool × List Char × Value :=
  match skipWs s with
  | ';' :: rest =>
    let body := rest.takeWhile (fun c => c != '\n')
    (true, rest.drop body.length,
      Value.list [Value.str [';'], Value.str (pyRstrip body)])
  | _ => (false, s, Value.none)

/-- `raw_comment`: regex `^([ \t]*;.*)?` with value `m.group(0) or ""`.
Always succeeds; consumes `[ \t]*;.*` when present and nothing otherwise. -/
def rawCommentP (s : List Char) : Bool × List Char × Value :=
  let sp := s.takeWhile (fun c => c == ' ' || c == '\t')
  match s.drop sp.length with
  | ';' :: rest =>
    let body := rest.takeWhile (fun c => c != '\n')
    (true, rest.drop body.length,
      Value.str (sp ++ ';' :: body))
  | _ => (true, s, Value.str [])

/-- One repetition unit of `blankline`'s regex `(\s*?\n){2,}`: the lazy
`\s*?` consumes the shortest run of whitespace reaching a `'\n'`, i.e. a run
of non-newline whitespace followed by the newline itself. -/
def blankUnit (s : List Char) : Option (List Char) :=
  match s.dropWhile (fun c => pyIsSpace c && c != '\n') with
  | '\n' :: rest => some rest
  | _ => none

/-- Greedy repetition of `blankUnit` (the `{2,}` quantifier), counting the
units matched.  Fuel-indexed; `s.length + 1` units can never be exceeded
since each unit consumes at least one character. -/
def blankGo : Nat → List Char → Nat × List Char
  | 0, s => (0, s)
  | f + 1, s =>
    match blankUnit s with
    | some rest =>
      let r := blankGo f rest
      (r.1 + 1, r.2)
    | none => (0, s)

/-- `blankline`: regex `^(\s*?\n){2,}` with value
`m.group(0).count("\n") - 2` (each unit contains exactly one newline, so the
count of newlines is the count of units). -/
def blanklineP (s : List Char) : Bool × List Char × Value :=
  let r := blankGo (s.length + 1) s
  if r.1 ≥ 2 then (true, r.2, Value.int (r.1 - 2)) else (false, s, Value.none)

/-! ### Atom scanners (`atom()` / `parse_atom`)

Each scanner implements one alternative inside
`parse_atom(pattern) = regex(r"^\s*(" + pattern + r")", m.group(1))`;
the surrounding `\s*` skip is shared via `parseAtomWith`. -/

def isDigit19 (c : Char) : Bool := '1' ≤ c && c ≤ '9'

def isDigit09 (c : Char) : Bool := '0' ≤ c && c ≤ '9'

def isHexDigit (c : Char) : Bool :=
  isDigit09 c || ('a' ≤ c && c ≤ 'f') || ('A' ≤ c && c ≤ 'F')

/-- numeral: `(?:0|[1-9][0-9]*)` — the `0` alternative is tried first, so a
leading `'0'` matches exactly `"0"`. -/
def numeralScan (s : List Char) : Option (List Char × List Char) :=
  match s with
  | '0' :: rest => some (['0'], rest)
  | c :: rest =>
    if isDigit19 c then
      let ds := rest.takeWhile isDigit09
      some (c :: ds, rest.drop ds.length)
    else none
  | [] => none

/-- decimal: `(?:0|[1-9][0-9]*)\.[0-9]+`. -/
def decimalScan (s : List Char) : Option (List Char × List Char) :=
  match numeralScan s with
  | some (m, rest) =>
    match rest with
    | '.' :: r2 =>
      let ds := r2.takeWhile isDigit09
      if ds.isEmpty then none
      else some (m ++ '.' :: ds, r2.drop ds.length)
    | _ => none
  | none => none

/-- hexadecimal: `#x[0-9a-fA-F]+`. -/
def hexScan (s : List Char) : Option (List Char × List Char) :=
  match s with
  | '#' :: 'x' :: rest =>
    let ds := rest.takeWhile isHexDigit
    if ds.isEmpty then none
    else some ('#' :: 'x' :: ds, rest.drop ds.length)
  | _ => none

/-- binary: `#b[0-1]+`. -/
def binScan (s : List Char) : Option (List Char × List Char) :=
  match s with
  | '#' :: 'b' :: rest =>
    let ds := rest.takeWhile (fun c => c == '0' || c == '1')
    if ds.isEmpty then none
    else some ('#' :: 'b' :: ds, rest.drop ds.length)
  | _ => none

/-- Body of the string literal regex `"(?:""|[^"])*"` after the opening
quote: returns the longest `(body, rest)` with the scanned text being
`body ++ '"' :: rest` and `body` a well-formed literal body, matching the
greedy-with-backtracking behaviour of the pattern. -/
def strBody : List Char → Option (List Char × List Char)
  | '"' :: '"' :: r =>
    match strBody r with
    | some (b, rest) => some ('"' :: '"' :: b, rest)
    | none => some ([], '"' :: r)
  | '"' :: r => some ([], r)
  | c :: r =>
    match strBody r with
    | some (b, rest) => some (c :: b, rest)
    | none => none
  | [] => none

/-- string literal: `"(?:""|[^"])*"`. -/
def stringScan (s : List Char) : Option (List Char × List Char) :=
  match s with
  | '"' :: r =>
    match strBody r with
    | some (b, rest) => some ('"' :: b ++ ['"'], rest)
    | none => none
  | _ => none

/-- The symbol character class `[+\-*=%?!.$_~&^<>@0-9a-zA-Z]`. -/
def isSymChar (c : Char) : Bool :=
  c == '+' || c == '-' || c == '*' || c == '=' || c == '%' || c == '?' ||
  c == '!' || c == '.' || c == '$' || c == '_' || c == '~' || c == '&' ||
  c == '^' || c == '<' || c == '>' || c == '@' || isDigit09 c ||
  ('a' ≤ c && c ≤ 'z') || ('A' ≤ c && c ≤ 'Z')

/-- simple symbol: `(?![0-9]):?[+\-*=%?!.$_~&^<>@0-9a-zA-Z]+` — a negative
lookahead forbidding a leading digit, an optional `':'` (which, because
`':'` itself is not a symbol character, must be followed by at least one
symbol character), then one or more symbol characters. -/
def simpleSymScan (s : List Char) : Option (List Char × List Char) :=
  match s with
  | c :: rest =>
    if isDigit09 c then none
    else if c == ':' then
      let ds := rest.takeWhile isSymChar
      if ds.isEmpty then none
      else some (c :: ds, rest.drop ds.length)
    else
      let ds := (c :: rest).takeWhile isSymChar
      if ds.isEmpty then none
      else some (ds, (c :: rest).drop ds.length)
  | [] => none

/-- quoted symbol: `\|[^|\\]*\|`. -/
def quotedSymScan (s : List Char) : Option (List Char × List Char) :=
  match s with
  | '|' :: rest =>
    let body := rest.takeWhile (fun c => c != '|' && c != '\\')
    match rest.drop body.length with
    | '|' :: r2 => some ('|' :: body ++ ['|'], r2)
    | _ => none
  | _ => none

/-- `parse_atom(pattern)`: skip `\s*`, run the scanner for the capture
group, value is the captured text. -/
def parseAtomWith (scan : List Char → Option (List Char × List Char)) :
    List Char → Bool × List Char × Value :=
  fun s =>
    match scan (skipWs s) with
    | some (m, rest) => (true, rest, Value.str m)
    | none => (false, s, Value.none)

/-! ## Generic combinators (`seq`, `choice`, `zeroOrMore`, `oneOrMore`)

Faithful to the Python source, including the cursor threading: `seq`
restores the original cursor on failure, `choice` passes each (failing)
alternative's returned cursor on to the next alternative and restores the
original cursor only when all alternatives have failed, and `zeroOrMore`
returns whatever cursor the final failing attempt returned. -/

/-- `seq(*parsers)`: run the sub-parsers in order, restoring the original
cursor on failure, and collect the truthy values in order. -/
def seqGo (s0 : List Char) : List FParser → List Char → List Value →
    Option (Bool × List Char × Value)
  | [], cur, acc => some (true, cur, Value.list acc)
  | p :: ps, cur, acc =>
    match p cur with
    | Option.none => Option.none
    | some (succ, cur2, v) =>
      if succ then
        seqGo s0 ps cur2 (if v.truthy then acc ++ [v] else acc)
      else some (false, s0, Value.none)

def seqP (ps : List FParser) : FParser := fun s => seqGo s ps s []

/-- `choice(*parsers)`: try the alternatives left-to-right, threading the
returned cursor from one attempt to the next, returning the first success;
on total failure return the original cursor. -/
def choiceGo (s0 : List Char) : List FParser → List Char →
    Option (Bool × List Char × Value)
  | [], _ => some (false, s0, Value.none)
  | p :: ps, cur =>
    match p cur with
    | Option.none => Option.none
    | some (succ, cur2, v) =>
      if succ then some (true, cur2, v) else choiceGo s0 ps cur2

def choiceP (ps : List FParser) : FParser := fun s => choiceGo s ps s

/-- The loop of `zeroOrMore(parser)`: repeat until failure, collecting every
value (truthy or not), and return the cursor produced by the final (failing)
attempt.  Fuel-indexed: `Option.none` signals that the Python loop would not
have terminated within the given fuel. -/
def zeroOrMoreGo (p : FParser) : Nat → List Char → List Value →
    Option (List Char × List Value)
  | 0, _, _ => Option.none
  | f + 1, s, acc =>
    match p s with
    | Option.none => Option.none
    | some (succ, s2, v) =>
      if succ then zeroOrMoreGo p f s2 (acc ++ [v])
      else some (s2, acc)

def zeroOrMoreP (p : FParser) (fuel : Nat) : FParser := fun s =>
  match zeroOrMoreGo p fuel s [] with
  | some (s2, vs) => some (true, s2, Value.list vs)
  | Option.none => Option.none

/-- `oneOrMore(parser)`: probe once; on failure fail at the original cursor,
otherwise run `zeroOrMore` from scratch. -/
def oneOrMoreP (p : FParser) (fuel : Nat) : FParser := fun s =>
  match p s with
  | Option.none => Option.none
  | some (succ, _, _) =>
    if succ then zeroOrMoreP p fuel s
    else some (false, s, Value.none)

/-! ## The grammar

```
Program ::= (blankline | Comment | SExpr)+
SExpr   ::= '(' Expr* ')' raw_comment
Expr    ::= blankline | Comment | SExpr | atom
```
`expr`/`sexpr` are mutually recursive in the source (fresh parser objects
are built at every call); here the recursion is paid for by one unit of
fuel per call. -/

/-- `atom()`: `seq(choice(numeral, decimal, hexadecimal, binary, string,
simple_symbol, quoted_symbol), raw_comment())`. -/
def atomP : FParser :=
  seqP
    [choiceP
      [liftP (parseAtomWith numeralScan),
       liftP (parseAtomWith decimalScan),
       liftP (parseAtomWith hexScan),
       liftP (parseAtomWith binScan),
       liftP (parseAtomWith stringScan),
       liftP (parseAtomWith simpleSymScan),
       liftP (parseAtomWith quotedSymScan)],
     liftP rawCommentP]

mutual

/-- `sexpr()`: `seq(lparen(), zeroOrMore(expr()), rparen(), raw_comment())`. -/
def sexprP : Nat → FParser
  | 0 => fun _ => Option.none
  | f + 1 =>
    seqP
      [liftP lparenP,
       zeroOrMoreP (exprP f) f,
       liftP rparenP,
       liftP rawCommentP]

/-- `expr()`: `choice(blankline(), comment(), sexpr(), atom())`. -/
def exprP : Nat → FParser
  | 0 => fun _ => Option.none
  | f + 1 =>
    choiceP [liftP blanklineP, liftP commentP, sexprP f, atomP]

end

/-- `program()`: `oneOrMore(choice(blankline(), comment(), sexpr()))`. -/
def programP (fuel : Nat) : FParser :=
  oneOrMoreP (choiceP [liftP blanklineP, liftP commentP, sexprP fuel]) fuel

/-! ## The formatter -/

/-- `SMALL_EXPRESSION_MAX_LENGTH = 80`. -/
def SMALL_EXPRESSION_MAX_LENGTH : Nat := 80

/-- `SPACES_PER_INDENT = 2`. -/
def SPACES_PER_INDENT : Nat := 2

/-- `isblankline(xs)`: `isinstance(xs, int)`. -/
def isblankline : Value → Bool
  | .int _ => true
  | _ => false

/-- `iscomment(xs)`: `not isblankline(xs) and len(xs) == 2 and xs[0] == ";"`. -/
def iscomment : Value → Bool
  | .list [Value.str a, _] => a == [';']
  | _ => false

/-- `isatom(xs)`: `isinstance(xs, list) and len(xs) in (1, 2) and
isinstance(xs[0], str)`. -/
def isatom : Value → Bool
  | .list [Value.str _] => true
  | .list [Value.str _, _] => true
  | _ => false

/-- `issexpr(xs)`: `isinstance(xs, list) and (len(xs) == 0 or
isinstance(xs[0], list))`. -/
def issexpr : Value → Bool
  | .list [] => true
  | .list (Value.list _ :: _) => true
  | _ => false

/-- `len(x) == 2` for a Python list value. -/
def hasLen2 : Value → Bool
  | .list [_, _] => true
  | _ => false

/-- `format_atom(xs)`: `"".join(xs)` (all elements of a reachable atom value
are strings; anything else would raise a `TypeError` in Python and is mapped
to `""`). -/
def format_atom : Value → List Char
  | .list l => (l.map Value.asStr).flatten
  | _ => []

/-- `decode_attached_comment(xs)`: yields `(xs[0], attached_comment)`, where
the attached comment is `xs[1]` when `len(xs) == 2` and `""` otherwise, and
`([], "")` for the empty list.  (Applied to a non-list, Python would raise;
we return the same default.) -/
def decode_attached_comment : Value → Value × List Char
  | .list [] => (Value.list [], [])
  | .list [a] => (a, [])
  | .list [a, b] => (a, b.asStr)
  | .list (a :: _ :: _ :: _) => (a, [])
  | _ => (Value.list [], [])

/-- The children list of a decoded `xs` (Python iterates the list directly;
a non-list would raise or loop forever, see `format_term_oneline`). -/
def childListOf : Value → List Value
  | .list l => l
  | _ => []

/-- `" ".join(terms)`. -/
def joinSpace : List (List Char) → List Char
  | [] => []
  | [t] => t
  | t :: rest => t ++ ' ' :: joinSpace rest

/-- The loop of `format_term_oneline` over the children `xs0`, returning
`some` of the rendered pieces when every child is one-line renderable.  The
recursive call on a child is passed in as `g` (structural recursion on the
children list). -/
def onelineKids (g : Value → Bool × List Char) : List Value → Option (List (List Char))
  | [] => some []
  | x :: rest =>
    let r := g x
    if r.1 then
      match onelineKids g rest with
      | some ts => some (r.2 :: ts)
      | Option.none => Option.none
    else Option.none

/-- `format_term_oneline(xs) -> (ok, rendering)`.  Fuel-indexed (fuel `0`
yields the failure default; the driver always supplies enough fuel). -/
def format_term_oneline : Nat → Value → Bool × List Char
  | 0, _ => (false, [])
  | f + 1, v =>
    if isblankline v then (false, [])
    else if iscomment v then (false, [])
    else
      let p := decode_attached_comment v
      if isatom v then (p.2.isEmpty, format_atom v)
      else if !p.2.isEmpty then (false, [])
      else
        match onelineKids (format_term_oneline f) (childListOf p.1) with
        | some ts => (true, '(' :: joinSpace ts ++ [')'])
        | Option.none => (false, [])

/-- Python `str.splitlines(keepends=True)` line-boundary characters other
than the two-character boundary `"\r\n"` (which the splitter below handles
first). -/
def isLineBreakChar (c : Char) : Bool :=
  c == '\n' || c == '\r' || c == '\x0b' || c == '\x0c' ||
  c == '\x1c' || c == '\x1d' || c == '\x1e' || c == '\x85' ||
  c == '\u2028' || c == '\u2029'

/-- Prepend a character to the first line of an already-split tail. -/
def consHead (c : Char) : List (List Char) → List (List Char)
  | [] => [[c]]
  | l :: ls => (c :: l) :: ls

/-- Python `s.splitlines(keepends=True)` on `List Char`: a `"\r\n"` pair
is one boundary, any other line-break character is a boundary by itself,
and a non-boundary character extends the current line. -/
def splitLines : List Char → List (List Char)
  | [] => []
  | c :: rest =>
    if c == '\r' then
      match rest with
      | '\n' :: rest2 => ['\r', '\n'] :: splitLines rest2
      | [] => ['\r'] :: splitLines []
      | d :: rest2 => ['\r'] :: splitLines (d :: rest2)
    else if isLineBreakChar c then [c] :: splitLines rest
    else consHead c (splitLines rest)

/-- The per-line transformation of the indentation loop at the end of
`format_term`: every line except the first that is not exactly `"\n"` is
prefixed with `SPACES_PER_INDENT` spaces. -/
def indentLines : List (List Char) → List (List Char)
  | [] => []
  | l :: ls =>
    l :: ls.map (fun m => if m == ['\n'] then m else ' ' :: ' ' :: m)

/-- The indentation pass of `format_term` (lines 208–215 of the source):
split into kept-ends lines, indent every non-first non-`"\n"` line, and
re-join. -/
def pyIndent (s : List Char) : List Char := (indentLines (splitLines s)).flatten

/-- One child of the expanded rendering loop of `format_term`
(lines 194–204): an optional leading newline for a first-child comment, the
child's own rendering (the recursive call is passed in as `g`), and the
trailing newline inserted after every non-last child, after comments, and
after a child carrying an attached comment. -/
def expChild (g : Value → Bool → List Char) (x : Value) (isFirst isLast : Bool) :
    List Char :=
  (if isFirst && iscomment x then ['\n'] else []) ++
  g x isFirst ++
  (if !isLast || iscomment x || ((isatom x || issexpr x) && hasLen2 x)
   then ['\n'] else [])

/-- The expanded-rendering loop over all children. -/
def expLoop (g : Value → Bool → List Char) : List Value → Bool → List Char
  | [], _ => []
  | [x], isFirst => expChild g x isFirst true
  | x :: y :: rest, isFirst =>
    expChild g x isFirst false ++ expLoop g (y :: rest) false

/-- The string `s` assembled by the expanded branch of `format_term`
(lines 190–207), before the indentation pass: `'('`, a newline unless the
first child is a comment or an atom, the children loop, `')'`, and the
attached comment. -/
def expandedBody (g : Value → Bool → List Char) (l : List Value) (att : List Char) :
    List Char :=
  '(' ::
  (if !iscomment (l.headD Value.none) && !isatom (l.headD Value.none)
   then ['\n'] else []) ++
  expLoop g l true ++
  ')' :: att

/-- `format_term(xs, first)`.  Fuel-indexed; the unused `first` parameter of
the source is kept for fidelity.  (For an empty children list the Python
expanded branch would raise an `IndexError`; it is unreachable because
`"()"` always fits on one line.) -/
def format_term : Nat → Value → Bool → List Char
  | 0, _, _ => []
  | f + 1, v, _first =>
    match v with
    | .int n => List.replicate n '\n'
    | _ =>
      if iscomment v then format_atom v
      else if isatom v then format_atom v
      else
        let p := decode_attached_comment v
        let r := format_term_oneline (f + 1) (Value.list [p.1])
        if r.1 && r.2.length < SMALL_EXPRESSION_MAX_LENGTH then r.2 ++ p.2
        else pyIndent (expandedBody (format_term f) (childListOf p.1) p.2)

/-- `format_terms(xs)`: join `format_term(x, False) + "\n"` over the parsed
top-level terms. -/
def format_terms (f : Nat) : Value → List Char
  | .list l => (l.map (fun x => format_term f x false ++ ['\n'])).flatten
  | _ => []

/-- The fuel supplied by the driver: enough for the parser (which spends at
most two units per consumed character, see the totality theorem for C8) and
for the formatter (whose recursion depth is bounded by the nesting depth of
the parsed tree, itself below the input length). -/
def driverFuel (s : List Char) : Nat := 2 * s.length + 2

/-- The successful-parse condition of `format_lisp`:
`not (not succ or (leftover and not leftover.isspace()) or terms is None)`. -/
def parseOk (r : Bool × List Char × Value) : Bool :=
  !(!r.1 || (!r.2.1.isEmpty && !r.2.1.all pyIsSpace) || r.2.2.isVNone)

/-- The parse step of `format_lisp`: run `program()` on the whole input.
The `getD` default is dead code: the totality theorem for claim C8 shows
`programP` always yields a result at this fuel. -/
def parseProgram (input : List Char) : Bool × List Char × Value :=
  (programP (driverFuel input) input).getD (false, input, Value.none)

/-- `format_lisp(input)`: parse, and either raise a `FormattingException`
carrying the stripped leftover (modelled by `Except.error`) or return the
formatted terms. -/
def format_lisp (input : List Char) : Except (List Char) (List Char) :=
  let r := parseProgram input
  if parseOk r then Except.ok (format_terms (driverFuel input) r.2.2)
  else Except.error (pyStrip r.2.1)

/-! ## Specification-side definitions

The following definitions are not translations of the source: they are the
comparison objects required by individual claims (a spec-modelled `choice`,
the decimal-free atom parser, a token-extraction function, the line-chunk
predicates used to state the indentation claim) and two artificial parsers
used as a counterexample. -/

/-- Modelled from the claim for C9 (spec §4.1, *choice*): try the
alternatives left-to-right, each attempt made against the *original*
cursor `s0`; return the first success; when every alternative fails, fail
with the cursor restored to the original position. -/
def choiceSpecGo (s0 : List Char) : List FParser → Option (Bool × List Char × Value)
  | [] => some (false, s0, Value.none)
  | p :: ps =>
    match p s0 with
    | Option.none => Option.none
    | some (succ, cur2, v) =>
      if succ then some (true, cur2, v) else choiceSpecGo s0 ps

/-- The spec-modelled `choice` combinator (see `choiceSpecGo`). -/
def choiceSpecP (ps : List FParser) : FParser := fun s => choiceSpecGo s ps

/-- An artificial parse step that fails while moving the cursor forward.
None of the module's parsers behave like this (they all restore on
failure), but the generic `choice` combinator accepts arbitrary steps. -/
def dropOneFail : FParser := fun s => some (false, s.drop 1, Value.none)

/-- An artificial parse step that succeeds without consuming and returns
the cursor it was applied to as its value, exposing which cursor the
attempt was made against. -/
def echoCursor : FParser := fun s => some (true, s, Value.str s)

/-- The atom parser with the decimal alternative removed — the comparison
object of claim C10. -/
def atomNoDecimalP : FParser :=
  seqP
    [choiceP
      [liftP (parseAtomWith numeralScan),
       liftP (parseAtomWith hexScan),
       liftP (parseAtomWith binScan),
       liftP (parseAtomWith stringScan),
       liftP (parseAtomWith simpleSymScan),
       liftP (parseAtomWith quotedSymScan)],
     liftP rawCommentP]

/-- A token observed in a parse tree: an atom text, a comment text (either
a standalone/leading comment's stripped text or an attached raw comment),
or a blank-line count.  Modelled from claim C2's notion of "the sequence of
atom texts, comment texts, and blank-line counts". -/
inductive Tok where
  | atomT (t : List Char) : Tok
  | commentT (t : List Char) : Tok
  | blankT (n : Nat) : Tok
deriving DecidableEq

/-- The token sequence of one parsed term (fuel-indexed recursion over the
tree, like the formatter). -/
def tokensOfTerm : Nat → Value → List Tok
  | 0, _ => []
  | f + 1, v =>
    match v with
    | .int n => [Tok.blankT n]
    | _ =>
      if iscomment v then
        match v with
        | .list [_, t] => [Tok.commentT t.asStr]
        | _ => []
      else if isatom v then
        match v with
        | .list [t] => [Tok.atomT t.asStr]
        | .list [t, raw] => [Tok.atomT t.asStr, Tok.commentT raw.asStr]
        | _ => []
      else
        let p := decode_attached_comment v
        ((childListOf p.1).map (tokensOfTerm f)).flatten ++
          (if p.2.isEmpty then [] else [Tok.commentT p.2])

/-- The token sequence recoverable from an input via the Program grammar:
`some` of the flattened tokens of the top-level terms when the parse
succeeds with only whitespace left over, `none` otherwise. -/
def tokensOfInput (s : List Char) : Option (List Tok) :=
  let r := parseProgram s
  if parseOk r then
    some (match r.2.2 with
      | .list l => (l.map (tokensOfTerm (driverFuel s))).flatten
      | _ => [])
  else Option.none

/-- A string is free of line-boundary characters. -/
def NBfree (l : List Char) : Prop := ∀ c ∈ l, isLineBreakChar c = false

/-- A string whose only line-boundary character is `'\n'`. -/
def onlyNL (s : List Char) : Prop :=
  ∀ c ∈ s, isLineBreakChar c = true → c = '\n'

/-- A well-formed list of kept-ends line chunks whose boundaries are all
`'\n'`: every chunk but the last is a boundary-free body followed by a
newline; the last chunk may also be a non-empty boundary-free body without
a terminator. -/
inductive Chunks : List (List Char) → Prop where
  | nil : Chunks []
  | last (body : List Char) (h : NBfree body) (hne : body ≠ []) : Chunks [body]
  | cons (body : List Char) (h : NBfree body) (ls : List (List Char))
      (hls : Chunks ls) : Chunks ((body ++ ['\n']) :: ls)

/-! ## Parser hygiene: consumption, restoration, boundedness

These predicates and lemmas support the termination claim (C8), the choice
semantics claim (C9) and the driver claim (C4). -/

/-- A parser never returns a cursor longer than its input. -/
def NonLen (p : FParser) : Prop :=
  ∀ s b r v, p s = some (b, r, v) → r.length ≤ s.length

/-- A parser consumes at least one character whenever it succeeds. -/
def Consuming (p : FParser) : Prop :=
  ∀ s r v, p s = some (true, r, v) → r.length < s.length

/-- A parser restores the original cursor whenever it fails. -/
def Restoring (p : FParser) : Prop :=
  ∀ s r v, p s = some (false, r, v) → r = s

theorem length_dropWhile_le (q : Char → Bool) (s : List Char) :
    (s.dropWhile q).length ≤ s.length :=
  List.Sublist.length_le (show List.Sublist (s.dropWhile q) s from List.dropWhile_sublist q)

theorem length_drop_le (s : List Char) (n : Nat) :
    (s.drop n).length ≤ s.length := by
  simp [List.length_drop]

theorem skipWs_le (s : List Char) : (skipWs s).length ≤ s.length :=
  length_dropWhile_le pyIsSpace s

theorem blankUnit_lt {s r : List Char} (h : blankUnit s = some r) :
    r.length < s.length := by
  unfold blankUnit at h
  split at h
  · rename_i rest heq
    injection h with h
    subst h
    have hle := length_dropWhile_le (fun c => pyIsSpace c && c != '\n') s
    rw [heq] at hle
    simp at hle
    omega
  · cases h

theorem blankGo_le (f : Nat) (s : List Char) :
    (blankGo f s).2.length ≤ s.length ∧
    (1 ≤ (blankGo f s).1 → (blankGo f s).2.length < s.length) := by
  induction f generalizing s with
  | zero => simp [blankGo]
  | succ f ih =>
    unfold blankGo
    rcases hu : blankUnit s with _ | rest
    · simp
    · have hlt := blankUnit_lt hu
      have := ih rest
      simp only []
      exact ⟨by omega, fun _ => by omega⟩

theorem blanklineP_consume {s r : List Char} {v : Value}
    (h : blanklineP s = (true, r, v)) : r.length < s.length := by
  unfold blanklineP at h
  simp only [] at h
  split at h
  · rename_i hge
    injection h with _ h
    injection h with h _
    subst h
    exact (blankGo_le (s.length + 1) s).2 (by omega)
  · cases h

theorem blanklineP_restore {s r : List Char} {v : Value}
    (h : blanklineP s = (false, r, v)) : r = s := by
  unfold blanklineP at h
  simp only [] at h
  split at h
  · cases h
  · injection h with _ h
    injection h with h _
    exact h.symm

theorem commentP_consume {s r : List Char} {v : Value}
    (h : commentP s = (true, r, v)) : r.length < s.length := by
  unfold commentP at h
  split at h
  · rename_i rest heq
    injection h with _ h
    injection h with h _
    subst h
    have hle := skipWs_le s
    rw [heq] at hle
    simp at hle
    have := length_drop_le rest (rest.takeWhile (fun c => c != '\n')).length
    omega
  · cases h

theorem commentP_restore {s r : List Char} {v : Value}
    (h : commentP s = (false, r, v)) : r = s := by
  unfold commentP at h
  split at h
  · cases h
  · injection h with _ h
    injection h with h _
    exact h.symm

theorem rawCommentP_true (s : List Char) : (rawCommentP s).1 = true := by
  unfold rawCommentP
  simp only []
  split <;> rfl

theorem rawCommentP_le (s : List Char) : (rawCommentP s).2.1.length ≤ s.length := by
  unfold rawCommentP
  simp only []
  split
  · rename_i rest heq
    have h1 : rest.length < s.length := by
      have := length_drop_le s (s.takeWhile (fun c => c == ' ' || c == '\t')).length
      rw [heq] at this
      simp at this
      omega
    have := length_drop_le rest (rest.takeWhile (fun c => c != '\n')).length
    simp only []
    omega
  · simp

theorem lparenP_consume {s r : List Char} {v : Value}
    (h : lparenP s = (true, r, v)) : r.length < s.length := by
  unfold lparenP at h
  split at h
  · rename_i rest heq
    injection h with _ h
    injection h with h _
    subst h
    have hle := skipWs_le s
    rw [heq] at hle
    simp at hle
    omega
  · cases h

theorem lparenP_restore {s r : List Char} {v : Value}
    (h : lparenP s = (false, r, v)) : r = s := by
  unfold lparenP at h
  split at h
  · cases h
  · injection h with _ h
    injection h with h _
    exact h.symm

theorem rparenP_consume {s r : List Char} {v : Value}
    (h : rparenP s = (true, r, v)) : r.length < s.length := by
  unfold rparenP at h
  split at h
  · rename_i rest heq
    injection h with _ h
    injection h with h _
    subst h
    have hle := skipWs_le s
    rw [heq] at hle
    simp at hle
    omega
  · cases h

theorem rparenP_restore {s r : List Char} {v : Value}
    (h : rparenP s = (false, r, v)) : r = s := by
  unfold rparenP at h
  split at h
  · cases h
  · injection h with _ h
    injection h with h _
    exact h.symm

theorem numeralScan_lt {s m rest : List Char} (h : numeralScan s = some (m, rest)) :
    rest.length < s.length := by
  unfold numeralScan at h
  split at h
  · injection h with h
    injection h with _ h
    subst h
    simp
  · rename_i c rest0 hne
    split at h
    · injection h with h
      injection h with _ h
      subst h
      have := length_drop_le rest0 (rest0.takeWhile isDigit09).length
      simp
      omega
    · cases h
  · cases h

theorem decimalScan_lt {s m rest : List Char} (h : decimalScan s = some (m, rest)) :
    rest.length < s.length := by
  unfold decimalScan at h
  simp only [] at h
  split at h
  · rename_i m0 rest0 hnum
    have h0 := numeralScan_lt hnum
    split at h
    · rename_i r2
      split at h
      · cases h
      · injection h with h
        injection h with _ h
        subst h
        have h1 := length_drop_le r2 (r2.takeWhile isDigit09).length
        have h2 : r2.length + 1 < s.length := by simpa using h0
        omega
    · cases h
  · cases h

theorem hexScan_lt {s m rest : List Char} (h : hexScan s = some (m, rest)) :
    rest.length < s.length := by
  unfold hexScan at h
  simp only [] at h
  split at h
  · rename_i rest0
    split at h
    · cases h
    · injection h with h
      injection h with _ h
      subst h
      have := length_drop_le rest0 (rest0.takeWhile isHexDigit).length
      simp
      omega
  · cases h

theorem binScan_lt {s m rest : List Char} (h : binScan s = some (m, rest)) :
    rest.length < s.length := by
  unfold binScan at h
  simp only [] at h
  split at h
  · rename_i rest0
    split at h
    · cases h
    · injection h with h
      injection h with _ h
      subst h
      have := length_drop_le rest0 (rest0.takeWhile (fun c => c == '0' || c == '1')).length
      simp
      omega
  · cases h

theorem strBody_lt : ∀ (n : Nat) (s : List Char), s.length ≤ n →
    ∀ b rest, strBody s = some (b, rest) → rest.length < s.length := by
  intro n
  induction n with
  | zero =>
    intro s hs b rest h
    interval_cases hl : s.length
    rw [List.length_eq_zero] at hl
    subst hl
    simp [strBody] at h
  | succ n ih =>
    intro s hs b rest h
    unfold strBody at h
    split at h
    · rename_i r
      split at h
      · rename_i b2 rest2 hrec
        have := ih r (by simp at hs; omega) b2 rest2 hrec
        injection h with h
        injection h with _ h
        subst h
        simp
        omega
      · injection h with h
        injection h with _ h
        subst h
        simp
    · injection h with h
      injection h with _ h
      subst h
      simp
    · rename_i c r hne1 hne2
      split at h
      · rename_i b2 rest2 hrec
        have := ih r (by simp at hs; omega) b2 rest2 hrec
        injection h with h
        injection h with _ h
        subst h
        simp
        omega
      · cases h
    · cases h

theorem stringScan_lt {s m rest : List Char} (h : stringScan s = some (m, rest)) :
    rest.length < s.length := by
  unfold stringScan at h
  split at h
  · rename_i r
    split at h
    · rename_i b rest2 hrec
      have := strBody_lt r.length r (le_refl _) b rest2 hrec
      injection h with h
      injection h with _ h
      subst h
      simp
      omega
    · cases h
  · cases h

theorem simpleSymScan_lt {s m rest : List Char} (h : simpleSymScan s = some (m, rest)) :
    rest.length < s.length := by
  unfold simpleSymScan at h
  simp only [] at h
  split at h
  · rename_i c rest0
    split at h
    · cases h
    · split at h
      · split at h
        · cases h
        · injection h with h
          injection h with _ h
          subst h
          have := length_drop_le rest0 (rest0.takeWhile isSymChar).length
          simp
          omega
      · split at h
        · cases h
        · rename_i hne
          injection h with h
          injection h with _ h
          subst h
          rcases htk : (c :: rest0).takeWhile isSymChar with _ | ⟨d, ds⟩
          · rw [htk] at hne; simp at hne
          · simp only [List.length_cons, List.drop_succ_cons]
            have := length_drop_le rest0 ds.length
            omega
  · cases h

theorem quotedSymScan_lt {s m rest : List Char} (h : quotedSymScan s = some (m, rest)) :
    rest.length < s.length := by
  unfold quotedSymScan at h
  simp only [] at h
  split at h
  · rename_i rest0
    split at h
    · rename_i r2 heq
      injection h with h
      injection h with _ h
      subst h
      have h1 : (rest0.drop (rest0.takeWhile (fun c => c != '|' && c != '\\')).length).length
          ≤ rest0.length := length_drop_le _ _
      rw [heq] at h1
      simp at h1 ⊢
      omega
    · cases h
  · cases h

/-! ### Combinator-level lemmas -/

theorem parseAtomWith_consume {scan : List Char → Option (List Char × List Char)}
    (hscan : ∀ s m rest, scan s = some (m, rest) → rest.length < s.length) :
    Consuming (liftP (parseAtomWith scan)) := by
  intro s r v h
  simp only [liftP, Option.some.injEq] at h
  unfold parseAtomWith at h
  split at h
  · rename_i m rest hm
    injection h with _ h
    injection h with h _
    subst h
    exact lt_of_lt_of_le (hscan _ _ _ hm) (skipWs_le s)
  · cases h

theorem parseAtomWith_restore (scan : List Char → Option (List Char × List Char)) :
    Restoring (liftP (parseAtomWith scan)) := by
  intro s r v h
  simp only [liftP, Option.some.injEq] at h
  unfold parseAtomWith at h
  split at h
  · cases h
  · injection h with _ h
    injection h with h _
    exact h.symm

theorem choiceGo_restore {ps : List FParser} {s0 cur r : List Char} {v : Value}
    (h : choiceGo s0 ps cur = some (false, r, v)) : r = s0 ∧ v = Value.none := by
  induction ps generalizing cur with
  | nil =>
    unfold choiceGo at h
    injection h with h
    injection h with _ h
    injection h with h1 h2
    exact ⟨h1.symm, h2.symm⟩
  | cons p ps ih =>
    unfold choiceGo at h
    split at h
    · cases h
    · rename_i b cur2 v2 heq
      split at h
      · cases h
      · exact ih h

theorem choiceP_restore (ps : List FParser) : Restoring (choiceP ps) := by
  intro s r v h
  exact (choiceGo_restore h).1

/-- If every alternative restores the cursor on failure and consumes on
success, then `choice` consumes on success. -/
theorem choiceGo_consume {ps : List FParser}
    (hres : ∀ p ∈ ps, Restoring p) (hcon : ∀ p ∈ ps, Consuming p) :
    ∀ {s0 r : List Char} {v : Value},
    choiceGo s0 ps s0 = some (true, r, v) → r.length < s0.length := by
  induction ps with
  | nil =>
    intro s0 r v h
    unfold choiceGo at h
    injection h with h
    cases h
  | cons p ps ih =>
    intro s0 r v h
    unfold choiceGo at h
    split at h
    · cases h
    · rename_i b cur2 v2 heq
      split at h
      · rename_i hb
        subst hb
        injection h with h
        injection h with _ h
        injection h with h1 _
        subst h1
        exact hcon p (by simp) s0 cur2 v2 heq
      · rename_i hb
        simp only [Bool.not_eq_true] at hb
        subst hb
        have hcur : cur2 = s0 := hres p (by simp) s0 cur2 v2 heq
        subst hcur
        exact ih (fun q hq => hres q (by simp [hq])) (fun q hq => hcon q (by simp [hq])) h

theorem choiceGo_isSome {ps : List FParser} {s0 cur : List Char}
    (h : ∀ p ∈ ps, ∀ t, (p t).isSome) : (choiceGo s0 ps cur).isSome := by
  induction ps generalizing cur with
  | nil => simp [choiceGo]
  | cons p ps ih =>
    unfold choiceGo
    rcases hp : p cur with _ | ⟨b, cur2, v⟩
    · have := h p (by simp) cur
      rw [hp] at this
      cases this
    · cases b
      · simp only [Bool.false_eq_true, if_false]
        exact ih (fun q hq => h q (by simp [hq]))
      · simp

theorem seqGo_restore {ps : List FParser} {s0 cur r : List Char} {acc : List Value}
    {v : Value} (h : seqGo s0 ps cur acc = some (false, r, v)) :
    r = s0 ∧ v = Value.none := by
  induction ps generalizing cur acc with
  | nil =>
    unfold seqGo at h
    injection h with h
    cases h
  | cons p ps ih =>
    unfold seqGo at h
    split at h
    · cases h
    · rename_i b cur2 v2 heq
      split at h
      · exact ih h
      · injection h with h
        injection h with _ h
        injection h with h1 h2
        exact ⟨h1.symm, h2.symm⟩

theorem seqP_restore (ps : List FParser) : Restoring (seqP ps) := by
  intro s r v h
  exact (seqGo_restore h).1

/-- A successful `seq` never lengthens the cursor, provided each component
is `NonLen`. -/
theorem seqGo_success_le {ps : List FParser}
    (hps : ∀ p ∈ ps, NonLen p) :
    ∀ {s0 cur r : List Char} {acc : List Value} {v : Value},
    seqGo s0 ps cur acc = some (true, r, v) → r.length ≤ cur.length := by
  induction ps with
  | nil =>
    intro s0 cur r acc v h
    unfold seqGo at h
    injection h with h
    injection h with _ h
    injection h with h1 _
    subst h1
    exact le_refl _
  | cons p ps ih =>
    intro s0 cur r acc v h
    unfold seqGo at h
    split at h
    · cases h
    · rename_i b cur2 v2 heq
      split at h
      · have h1 := hps p (by simp) cur b cur2 v2 heq
        have h2 := ih (fun q hq => hps q (by simp [hq])) h
        omega
      · cases h

theorem seqGo_isSome {ps : List FParser} {s0 cur : List Char} {acc : List Value}
    (h : ∀ p ∈ ps, ∀ t, (p t).isSome) : (seqGo s0 ps cur acc).isSome := by
  induction ps generalizing cur acc with
  | nil => simp [seqGo]
  | cons p ps ih =>
    unfold seqGo
    rcases hp : p cur with _ | ⟨b, cur2, v⟩
    · have := h p (by simp) cur
      rw [hp] at this
      cases this
    · cases b
      · simp
      · simp only [if_true]
        exact ih (fun q hq => h q (by simp [hq]))

theorem zeroOrMoreGo_success_le {p : FParser} (hp : NonLen p) :
    ∀ {f : Nat} {s r : List Char} {acc vs : List Value},
    zeroOrMoreGo p f s acc = some (r, vs) → r.length ≤ s.length := by
  intro f
  induction f with
  | zero => intro s r acc vs h; cases h
  | succ f ih =>
    intro s r acc vs h
    unfold zeroOrMoreGo at h
    split at h
    · cases h
    · rename_i b s2 v heq
      split at h
      · have h1 := hp s b s2 v heq
        have h2 := ih h
        omega
      · injection h with h
        injection h with h1 _
        subst h1
        exact hp s b s2 v heq

theorem zeroOrMoreGo_acc_le {p : FParser} :
    ∀ {f : Nat} {s r : List Char} {acc vs : List Value},
    zeroOrMoreGo p f s acc = some (r, vs) → acc.length ≤ vs.length := by
  intro f
  induction f with
  | zero => intro s r acc vs h; cases h
  | succ f ih =>
    intro s r acc vs h
    unfold zeroOrMoreGo at h
    split at h
    · cases h
    · split at h
      · have := ih h
        simp at this
        omega
      · injection h with h
        injection h with _ h
        subst h
        exact le_refl _

/-- Totality of the `zeroOrMore` loop: if the sub-parser is total and
consuming on all cursors within the initial bound, fuel `s.length + 1`
suffices. -/
theorem zeroOrMoreGo_isSome {p : FParser} {B : Nat}
    (hsome : ∀ t : List Char, t.length ≤ B → (p t).isSome)
    (hcon : Consuming p) :
    ∀ (f : Nat) (s : List Char) (acc : List Value),
    s.length ≤ B → s.length + 1 ≤ f → (zeroOrMoreGo p f s acc).isSome := by
  intro f
  induction f with
  | zero => intro s acc hB hf; omega
  | succ f ih =>
    intro s acc hB hf
    unfold zeroOrMoreGo
    rcases hp : p s with _ | ⟨b, s2, v⟩
    · have := hsome s hB
      rw [hp] at this
      cases this
    · cases b
      · simp
      · simp only [if_true]
        have hlt := hcon s s2 v hp
        exact ih s2 (acc ++ [v]) (by omega) (by omega)

/-! ### Grammar-level properties -/

theorem liftP_isSome (q : List Char → Bool × List Char × Value) (t : List Char) :
    (liftP q t).isSome := rfl

theorem liftP_eq {q : List Char → Bool × List Char × Value} {s : List Char}
    {b : Bool} {r : List Char} {v : Value} (h : liftP q s = some (b, r, v)) :
    q s = (b, r, v) := by
  simpa [liftP] using h

theorem blanklineF_consume : Consuming (liftP blanklineP) := by
  intro s r v h
  exact blanklineP_consume (liftP_eq h)

theorem blanklineF_restore : Restoring (liftP blanklineP) := by
  intro s r v h
  exact blanklineP_restore (liftP_eq h)

theorem blanklineF_nonlen : NonLen (liftP blanklineP) := by
  intro s b r v h
  cases b
  · rw [blanklineP_restore (liftP_eq h)]
  · exact le_of_lt (blanklineP_consume (liftP_eq h))

theorem commentF_consume : Consuming (liftP commentP) := by
  intro s r v h
  exact commentP_consume (liftP_eq h)

theorem commentF_restore : Restoring (liftP commentP) := by
  intro s r v h
  exact commentP_restore (liftP_eq h)

theorem commentF_nonlen : NonLen (liftP commentP) := by
  intro s b r v h
  cases b
  · rw [commentP_restore (liftP_eq h)]
  · exact le_of_lt (commentP_consume (liftP_eq h))

theorem rawCommentF_nonlen : NonLen (liftP rawCommentP) := by
  intro s b r v h
  have h2 := liftP_eq h
  have := rawCommentP_le s
  rw [h2] at this
  exact this

theorem lparenF_nonlen : NonLen (liftP lparenP) := by
  intro s b r v h
  cases b
  · rw [lparenP_restore (liftP_eq h)]
  · exact le_of_lt (lparenP_consume (liftP_eq h))

theorem rparenF_nonlen : NonLen (liftP rparenP) := by
  intro s b r v h
  cases b
  · rw [rparenP_restore (liftP_eq h)]
  · exact le_of_lt (rparenP_consume (liftP_eq h))

theorem choiceGo_nonlen {ps : List FParser} (hps : ∀ p ∈ ps, NonLen p) :
    ∀ {s0 cur r : List Char} {b : Bool} {v : Value}, cur.length ≤ s0.length →
    choiceGo s0 ps cur = some (b, r, v) → r.length ≤ s0.length := by
  induction ps with
  | nil =>
    intro s0 cur r b v hc h
    unfold choiceGo at h
    injection h with h
    injection h with _ h
    injection h with h1 _
    subst h1
    exact le_refl _
  | cons p ps ih =>
    intro s0 cur r b v hc h
    unfold choiceGo at h
    split at h
    · cases h
    · rename_i b2 cur2 v2 heq
      have h2 : cur2.length ≤ cur.length := hps p (by simp) cur b2 cur2 v2 heq
      split at h
      · injection h with h
        injection h with _ h
        injection h with h1 _
        subst h1
        omega
      · exact ih (fun q hq => hps q (by simp [hq])) (by omega) h

theorem choiceP_nonlen {ps : List FParser} (hps : ∀ p ∈ ps, NonLen p) :
    NonLen (choiceP ps) := by
  intro s b r v h
  exact choiceGo_nonlen hps (le_refl _) h

theorem seqP_nonlen {ps : List FParser} (hps : ∀ p ∈ ps, NonLen p) :
    NonLen (seqP ps) := by
  intro s b r v h
  cases b
  · rw [(seqGo_restore h).1]
  · exact seqGo_success_le hps h

theorem zeroOrMoreP_nonlen {p : FParser} (hp : NonLen p) (f : Nat) :
    NonLen (zeroOrMoreP p f) := by
  intro s b r v h
  unfold zeroOrMoreP at h
  split at h
  · rename_i r2 vs heq
    injection h with h
    injection h with _ h
    injection h with h1 _
    subst h1
    exact zeroOrMoreGo_success_le hp heq
  · cases h

theorem seqP_cons_consume {p : FParser} {ps : List FParser}
    (hp : Consuming p) (hps : ∀ q ∈ ps, NonLen q) :
    Consuming (seqP (p :: ps)) := by
  intro s r v h
  unfold seqP seqGo at h
  split at h
  · cases h
  · rename_i b cur2 v2 heq
    split at h
    · rename_i hb
      subst hb
      have h1 := hp s cur2 v2 heq
      have h2 := seqGo_success_le hps h
      omega
    · cases h

theorem choiceP_consume {ps : List FParser}
    (hres : ∀ p ∈ ps, Restoring p) (hcon : ∀ p ∈ ps, Consuming p) :
    Consuming (choiceP ps) := by
  intro s r v h
  exact choiceGo_consume hres hcon h

/-- Membership helper for the seven atom alternatives. -/
theorem atom_alternatives_consume :
    ∀ p ∈ [liftP (parseAtomWith numeralScan), liftP (parseAtomWith decimalScan),
      liftP (parseAtomWith hexScan), liftP (parseAtomWith binScan),
      liftP (parseAtomWith stringScan), liftP (parseAtomWith simpleSymScan),
      liftP (parseAtomWith quotedSymScan)], Consuming p := by
  intro p hp
  simp only [List.mem_cons, List.not_mem_nil, or_false] at hp
  rcases hp with rfl | rfl | rfl | rfl | rfl | rfl | rfl
  · exact parseAtomWith_consume (fun s m rest h => numeralScan_lt h)
  · exact parseAtomWith_consume (fun s m rest h => decimalScan_lt h)
  · exact parseAtomWith_consume (fun s m rest h => hexScan_lt h)
  · exact parseAtomWith_consume (fun s m rest h => binScan_lt h)
  · exact parseAtomWith_consume (fun s m rest h => stringScan_lt h)
  · exact parseAtomWith_consume (fun s m rest h => simpleSymScan_lt h)
  · exact parseAtomWith_consume (fun s m rest h => quotedSymScan_lt h)

theorem atom_alternatives_restore :
    ∀ p ∈ [liftP (parseAtomWith numeralScan), liftP (parseAtomWith decimalScan),
      liftP (parseAtomWith hexScan), liftP (parseAtomWith binScan),
      liftP (parseAtomWith stringScan), liftP (parseAtomWith simpleSymScan),
      liftP (parseAtomWith quotedSymScan)], Restoring p := by
  intro p hp
  simp only [List.mem_cons, List.not_mem_nil, or_false] at hp
  rcases hp with rfl | rfl | rfl | rfl | rfl | rfl | rfl <;>
    exact parseAtomWith_restore _

theorem atomP_consume : Consuming atomP := by
  unfold atomP
  apply seqP_cons_consume
  · exact choiceP_consume atom_alternatives_restore atom_alternatives_consume
  · intro q hq
    simp only [List.mem_cons, List.not_mem_nil, or_false] at hq
    subst hq
    exact rawCommentF_nonlen

theorem atomP_restore : Restoring atomP := seqP_restore _

theorem atomP_isSome (s : List Char) : (atomP s).isSome := by
  unfold atomP
  apply seqGo_isSome
  intro p hp
  simp only [List.mem_cons, List.not_mem_nil, or_false] at hp
  rcases hp with rfl | rfl
  · intro t
    apply choiceGo_isSome
    intro q hq
    simp only [List.mem_cons, List.not_mem_nil, or_false] at hq
    rcases hq with rfl | rfl | rfl | rfl | rfl | rfl | rfl <;> exact liftP_isSome _
  · exact liftP_isSome _

theorem atomP_nonlen : NonLen atomP := by
  unfold atomP
  apply seqP_nonlen
  intro p hp
  simp only [List.mem_cons, List.not_mem_nil, or_false] at hp
  rcases hp with rfl | rfl
  · apply choiceP_nonlen
    intro q hq
    simp only [List.mem_cons, List.not_mem_nil, or_false] at hq
    have hr := atom_alternatives_restore
    have hc := atom_alternatives_consume
    rcases hq with rfl | rfl | rfl | rfl | rfl | rfl | rfl <;>
      { intro s b r v h
        cases b
        · rw [parseAtomWith_restore _ s r v h]
        · exact le_of_lt (parseAtomWith_consume (fun s m rest hh => by
            first
              | exact numeralScan_lt hh
              | exact decimalScan_lt hh
              | exact hexScan_lt hh
              | exact binScan_lt hh
              | exact stringScan_lt hh
              | exact simpleSymScan_lt hh
              | exact quotedSymScan_lt hh) s r v h) }
  · exact rawCommentF_nonlen

theorem sexprP_restore (f : Nat) : Restoring (sexprP f) := by
  cases f with
  | zero => intro s r v h; cases h
  | succ f => exact seqP_restore _

theorem exprP_restore (f : Nat) : Restoring (exprP f) := by
  cases f with
  | zero => intro s r v h; cases h
  | succ f => exact choiceP_restore _

theorem gramNonLen : ∀ f : Nat, NonLen (exprP f) ∧ NonLen (sexprP f) := by
  intro f
  induction f with
  | zero =>
    refine ⟨fun s b r v h => ?_, fun s b r v h => ?_⟩ <;> cases h
  | succ f ih =>
    constructor
    · show NonLen (choiceP [liftP blanklineP, liftP commentP, sexprP f, atomP])
      apply choiceP_nonlen
      intro p hp
      simp only [List.mem_cons, List.not_mem_nil, or_false] at hp
      rcases hp with rfl | rfl | rfl | rfl
      · exact blanklineF_nonlen
      · exact commentF_nonlen
      · exact ih.2
      · exact atomP_nonlen
    · show NonLen (seqP [liftP lparenP, zeroOrMoreP (exprP f) f, liftP rparenP,
        liftP rawCommentP])
      apply seqP_nonlen
      intro p hp
      simp only [List.mem_cons, List.not_mem_nil, or_false] at hp
      rcases hp with rfl | rfl | rfl | rfl
      · exact lparenF_nonlen
      · exact zeroOrMoreP_nonlen ih.1 f
      · exact rparenF_nonlen
      · exact rawCommentF_nonlen

theorem sexprP_consume (f : Nat) : Consuming (sexprP f) := by
  cases f with
  | zero => intro s r v h; cases h
  | succ f =>
    show Consuming (seqP [liftP lparenP, zeroOrMoreP (exprP f) f, liftP rparenP,
      liftP rawCommentP])
    apply seqP_cons_consume
    · intro s r v h
      exact lparenP_consume (liftP_eq h)
    · intro q hq
      simp only [List.mem_cons, List.not_mem_nil, or_false] at hq
      rcases hq with rfl | rfl | rfl
      · exact zeroOrMoreP_nonlen (gramNonLen f).1 f
      · exact rparenF_nonlen
      · exact rawCommentF_nonlen

theorem exprP_consume (f : Nat) : Consuming (exprP f) := by
  cases f with
  | zero => intro s r v h; cases h
  | succ f =>
    show Consuming (choiceP [liftP blanklineP, liftP commentP, sexprP f, atomP])
    apply choiceP_consume
    · intro p hp
      simp only [List.mem_cons, List.not_mem_nil, or_false] at hp
      rcases hp with rfl | rfl | rfl | rfl
      · exact blanklineF_restore
      · exact commentF_restore
      · exact sexprP_restore f
      · exact atomP_restore
    · intro p hp
      simp only [List.mem_cons, List.not_mem_nil, or_false] at hp
      rcases hp with rfl | rfl | rfl | rfl
      · exact blanklineF_consume
      · exact commentF_consume
      · exact sexprP_consume f
      · exact atomP_consume

theorem zeroOrMoreP_isSome {p : FParser} (B : Nat)
    (hsome : ∀ t : List Char, t.length ≤ B → (p t).isSome)
    (hcon : Consuming p) {f : Nat} {s : List Char}
    (hB : s.length ≤ B) (hf : s.length + 1 ≤ f) :
    (zeroOrMoreP p f s).isSome := by
  unfold zeroOrMoreP
  have := zeroOrMoreGo_isSome hsome hcon f s [] hB hf
  rcases hgo : zeroOrMoreGo p f s [] with _ | ⟨r, vs⟩
  · rw [hgo] at this; cases this
  · simp [hgo]

/-- Mutual totality of the fuelled grammar: `2·|s| + 1` fuel suffices for
`sexpr` and `2·|s| + 2` for `expr`. -/
theorem gramTotal : ∀ f : Nat,
    (∀ s : List Char, 2 * s.length + 1 ≤ f → (sexprP f s).isSome) ∧
    (∀ s : List Char, 2 * s.length + 2 ≤ f → (exprP f s).isSome) := by
  intro f
  induction f with
  | zero =>
    refine ⟨fun s h => ?_, fun s h => ?_⟩ <;> omega
  | succ f ih =>
    constructor
    · intro s hs
      show (seqP [liftP lparenP, zeroOrMoreP (exprP f) f, liftP rparenP,
        liftP rawCommentP] s).isSome
      unfold seqP
      unfold seqGo
      rcases hlp : lparenP s with ⟨b1, s1, v1⟩
      cases b1
      · simp [liftP, hlp]
      · have hs1 : s1.length < s.length := lparenP_consume hlp
        have hzm : (zeroOrMoreP (exprP f) f s1).isSome := by
          apply zeroOrMoreP_isSome s1.length
            (fun t ht => ih.2 t (by omega)) (exprP_consume f) (le_refl _)
          omega
        rcases hzmE : zeroOrMoreP (exprP f) f s1 with _ | ⟨b2, s2, v2⟩
        · rw [hzmE] at hzm; cases hzm
        · cases b2
          · simp [liftP, hlp, seqGo, hzmE]
          · rcases hrp : rparenP s2 with ⟨b3, s3, v3⟩
            cases b3 <;> simp [liftP, hlp, seqGo, hzmE, hrp, rawCommentP_true]
    · intro s hs
      show (choiceP [liftP blanklineP, liftP commentP, sexprP f, atomP] s).isSome
      unfold choiceP
      unfold choiceGo
      rcases hbl : blanklineP s with ⟨b1, s1, v1⟩
      cases b1
      · have hs1 : s = s1 := (blanklineP_restore hbl).symm
        subst hs1
        rcases hcm : commentP s with ⟨b2, s2, v2⟩
        cases b2
        · have hs2 : s = s2 := (commentP_restore hcm).symm
          subst hs2
          have hsx : (sexprP f s).isSome := ih.1 s (by omega)
          rcases hsxE : sexprP f s with _ | ⟨b3, s3, v3⟩
          · rw [hsxE] at hsx; cases hsx
          · cases b3
            · have hat := atomP_isSome s3
              rcases hatE : atomP s3 with _ | ⟨b4, s4, v4⟩
              · rw [hatE] at hat; cases hat
              · cases b4 <;>
                  simp [liftP, hbl, hcm, choiceGo, hsxE, hatE]
            · simp [liftP, hbl, hcm, choiceGo, hsxE]
        · simp [liftP, hbl, choiceGo, hcm]
      · simp [liftP, hbl]

/-- Totality of `program()` at the driver's fuel. -/
theorem programTotal (f : Nat) (s : List Char) (hf : 2 * s.length + 2 ≤ f) :
    (programP f s).isSome := by
  have hchoice : ∀ t : List Char, t.length ≤ s.length →
      ((choiceP [liftP blanklineP, liftP commentP, sexprP f] : FParser) t).isSome := by
    intro t ht
    unfold choiceP
    unfold choiceGo
    rcases hbl : blanklineP t with ⟨b1, s1, v1⟩
    cases b1
    · have hs1 : t = s1 := (blanklineP_restore hbl).symm
      subst hs1
      rcases hcm : commentP t with ⟨b2, s2, v2⟩
      cases b2
      · have hs2 : t = s2 := (commentP_restore hcm).symm
        subst hs2
        have hsx : (sexprP f t).isSome := (gramTotal f).1 t (by omega)
        rcases hsxE : sexprP f t with _ | ⟨b3, s3, v3⟩
        · rw [hsxE] at hsx; cases hsx
        · cases b3 <;> simp [liftP, hbl, hcm, choiceGo, hsxE]
      · simp [liftP, hbl, choiceGo, hcm]
    · simp [liftP, hbl]
  have hcon : Consuming (choiceP [liftP blanklineP, liftP commentP, sexprP f]) := by
    apply choiceP_consume
    · intro p hp
      simp only [List.mem_cons, List.not_mem_nil, or_false] at hp
      rcases hp with rfl | rfl | rfl
      · exact blanklineF_restore
      · exact commentF_restore
      · exact sexprP_restore f
    · intro p hp
      simp only [List.mem_cons, List.not_mem_nil, or_false] at hp
      rcases hp with rfl | rfl | rfl
      · exact blanklineF_consume
      · exact commentF_consume
      · exact sexprP_consume f
  unfold programP oneOrMoreP
  have hpr := hchoice s (le_refl _)
  rcases hprE : (choiceP [liftP blanklineP, liftP commentP, sexprP f] : FParser) s
    with _ | ⟨b, s2, v⟩
  · rw [hprE] at hpr; cases hpr
  · cases b
    · simp [hprE]
    · simp only [hprE, if_true]
      exact zeroOrMoreP_isSome s.length hchoice hcon (le_refl _) (by omega)

/-! ### Choice semantics (supporting C9) -/

theorem choiceGo_eq_spec {ps : List FParser} (h : ∀ p ∈ ps, Restoring p) :
    ∀ s0 : List Char, choiceGo s0 ps s0 = choiceSpecGo s0 ps := by
  induction ps with
  | nil => intro s0; rfl
  | cons p ps ih =>
    intro s0
    unfold choiceGo choiceSpecGo
    rcases hp : p s0 with _ | ⟨b, cur2, v⟩
    · rfl
    · cases b
      · have hc : s0 = cur2 := (h p (by simp) s0 cur2 v hp).symm
        subst hc
        simp only [Bool.false_eq_true, if_false]
        exact ih (fun q hq => h q (by simp [hq])) s0
      · rfl

theorem choiceP_eq_spec {ps : List FParser} (h : ∀ p ∈ ps, Restoring p)
    (s : List Char) : choiceP ps s = choiceSpecP ps s :=
  choiceGo_eq_spec h s

/-! ### Decimal unreachability (supporting C10) -/

theorem decimalScan_none {s : List Char} (h : numeralScan s = none) :
    decimalScan s = none := by
  unfold decimalScan
  rw [h]

theorem parseAtomWith_fail_shape {scan : List Char → Option (List Char × List Char)}
    {s r : List Char} {v : Value}
    (h : parseAtomWith scan s = (false, r, v)) : scan (skipWs s) = none := by
  unfold parseAtomWith at h
  split at h
  · cases h
  · assumption

theorem parseAtomWith_fail {scan : List Char → Option (List Char × List Char)}
    {s : List Char} (h : scan (skipWs s) = none) :
    parseAtomWith scan s = (false, s, Value.none) := by
  unfold parseAtomWith
  rw [h]

theorem atomP_eq_noDecimal (s : List Char) : atomP s = atomNoDecimalP s := by
  unfold atomP atomNoDecimalP seqP
  have hchoice :
      choiceP [liftP (parseAtomWith numeralScan), liftP (parseAtomWith decimalScan),
        liftP (parseAtomWith hexScan), liftP (parseAtomWith binScan),
        liftP (parseAtomWith stringScan), liftP (parseAtomWith simpleSymScan),
        liftP (parseAtomWith quotedSymScan)] s =
      choiceP [liftP (parseAtomWith numeralScan),
        liftP (parseAtomWith hexScan), liftP (parseAtomWith binScan),
        liftP (parseAtomWith stringScan), liftP (parseAtomWith simpleSymScan),
        liftP (parseAtomWith quotedSymScan)] s := by
    unfold choiceP
    unfold choiceGo
    rcases hnum : parseAtomWith numeralScan s with ⟨b, cur, v⟩
    cases b
    · have hc : s = cur :=
        (parseAtomWith_restore numeralScan s cur v (by simp [liftP, hnum])).symm
      subst hc
      have hnone : numeralScan (skipWs s) = none := parseAtomWith_fail_shape hnum
      have hdec : parseAtomWith decimalScan s = (false, s, Value.none) :=
        parseAtomWith_fail (decimalScan_none hnone)
      simp [liftP, hnum, choiceGo, hdec]
    · simp [liftP, hnum]
  unfold seqGo
  rw [show (choiceP [liftP (parseAtomWith numeralScan), liftP (parseAtomWith decimalScan),
        liftP (parseAtomWith hexScan), liftP (parseAtomWith binScan),
        liftP (parseAtomWith stringScan), liftP (parseAtomWith simpleSymScan),
        liftP (parseAtomWith quotedSymScan)] : FParser) s =
      (choiceP [liftP (parseAtomWith numeralScan),
        liftP (parseAtomWith hexScan), liftP (parseAtomWith binScan),
        liftP (parseAtomWith stringScan), liftP (parseAtomWith simpleSymScan),
        liftP (parseAtomWith quotedSymScan)] : FParser) s from hchoice]

/-! ### Driver-level lemmas (supporting C4) -/

theorem zeroOrMoreP_shape {p : FParser} {f : Nat} {s r : List Char} {b : Bool}
    {v : Value} (h : zeroOrMoreP p f s = some (b, r, v)) :
    b = true ∧ ∃ vs, v = Value.list vs := by
  unfold zeroOrMoreP at h
  split at h
  · rename_i r2 vs heq
    injection h with h
    injection h with h1 h
    injection h with _ h2
    exact ⟨h1.symm, vs, h2.symm⟩
  · cases h

theorem oneOrMoreP_success_shape {p : FParser} {f : Nat} {s r : List Char}
    {v : Value} (h : oneOrMoreP p f s = some (true, r, v)) :
    ∃ vs, v = Value.list vs ∧ vs ≠ [] := by
  unfold oneOrMoreP at h
  split at h
  · cases h
  · rename_i b s2 v2 heq
    split at h
    · rename_i hb
      subst hb
      -- `h : zeroOrMoreP p f s = some (true, r, v)`
      unfold zeroOrMoreP at h
      split at h
      · rename_i r2 vs hgo
        injection h with h
        injection h with _ h
        injection h with h1 h2
        subst h1
        subst h2
        -- the loop's first step re-runs `p s`, which succeeds again
        rcases f with _ | g
        · cases hgo
        · unfold zeroOrMoreGo at hgo
          rw [heq] at hgo
          simp only [if_true] at hgo
          have hlen := zeroOrMoreGo_acc_le hgo
          refine ⟨vs, rfl, ?_⟩
          intro hnil
          subst hnil
          simp at hlen
      · cases h
    · injection h with h
      cases h

theorem oneOrMoreP_fail_shape {p : FParser} {f : Nat} {s r : List Char}
    {v : Value} (h : oneOrMoreP p f s = some (false, r, v)) :
    r = s ∧ v = Value.none := by
  unfold oneOrMoreP at h
  split at h
  · cases h
  · rename_i b s2 v2 heq
    split at h
    · have := zeroOrMoreP_shape h
      simp at this
    · injection h with h
      injection h with _ h
      injection h with h1 h2
      exact ⟨h1.symm, h2.symm⟩

theorem parseProgram_eq (s : List Char) :
    programP (driverFuel s) s = some (parseProgram s) := by
  have h := programTotal (driverFuel s) s (by unfold driverFuel; omega)
  unfold parseProgram
  rcases he : programP (driverFuel s) s with _ | r
  · rw [he] at h; cases h
  · rfl

theorem parseProgram_success_shape {s : List Char}
    (h : (parseProgram s).1 = true) :
    ∃ vs, (parseProgram s).2.2 = Value.list vs ∧ vs ≠ [] := by
  have he := parseProgram_eq s
  rcases hp : parseProgram s with ⟨b, r, v⟩
  rw [hp] at he h
  simp only [] at h
  subst h
  exact oneOrMoreP_success_shape he

theorem parseProgram_fail_shape {s : List Char}
    (h : (parseProgram s).1 = false) :
    (parseProgram s).2.1 = s ∧ (parseProgram s).2.2 = Value.none := by
  have he := parseProgram_eq s
  rcases hp : parseProgram s with ⟨b, r, v⟩
  rw [hp] at he h
  simp only [] at h
  subst h
  exact oneOrMoreP_fail_shape he

/-! ### Line splitting and indentation (supporting C3, C6, C7) -/

theorem splitLines_cons_nl (t : List Char) :
    splitLines ('\n' :: t) = ['\n'] :: splitLines t := by
  rw [splitLines.eq_def]
  simp [isLineBreakChar]

theorem splitLines_cons_nb {c : Char} (t : List Char)
    (h : isLineBreakChar c = false) :
    splitLines (c :: t) = consHead c (splitLines t) := by
  have hr : (c == '\r') = false := by
    cases hcc : c == '\r'
    · rfl
    · exfalso
      have : c = '\r' := by simpa using hcc
      subst this
      simp [isLineBreakChar] at h
  rw [splitLines.eq_def]
  simp [hr, h]

theorem flatten_consHead (c : Char) (ls : List (List Char)) :
    (consHead c ls).flatten = c :: ls.flatten := by
  cases ls <;> simp [consHead]

theorem indentLines_consHead (c : Char) (ls : List (List Char)) :
    indentLines (consHead c ls) = consHead c (indentLines ls) := by
  cases ls <;> simp [consHead, indentLines]

theorem pyIndent_cons_nb {c : Char} (s : List Char)
    (h : isLineBreakChar c = false) :
    pyIndent (c :: s) = c :: pyIndent s := by
  unfold pyIndent
  rw [splitLines_cons_nb s h, indentLines_consHead, flatten_consHead]

theorem pyIndent_append_nb {a : List Char} (t : List Char) (h : NBfree a) :
    pyIndent (a ++ t) = a ++ pyIndent t := by
  induction a with
  | nil => simp
  | cons c a ih =>
    have hc : isLineBreakChar c = false := h c (by simp)
    simp only [List.cons_append]
    rw [pyIndent_cons_nb _ hc, ih (fun d hd => h d (by simp [hd]))]

theorem splitLines_flatten : ∀ (n : Nat) (s : List Char), s.length ≤ n →
    (splitLines s).flatten = s := by
  intro n
  induction n with
  | zero =>
    intro s hs
    have : s = [] := List.eq_nil_of_length_eq_zero (by omega)
    subst this
    rfl
  | succ n ih =>
    intro s hs
    rcases s with _ | ⟨c, t⟩
    · rfl
    · rw [splitLines.eq_def]
      rcases hcc : c == '\r' with _ | _
      · simp only [hcc, Bool.false_eq_true, if_false]
        by_cases hb : isLineBreakChar c = true
        · simp only [hb, if_true, List.flatten_cons]
          rw [ih t (by simp at hs; omega)]
          rfl
        · simp only [hb, Bool.false_eq_true, if_false]
          rw [flatten_consHead, ih t (by simp at hs; omega)]
      · have hc : c = '\r' := by simpa using hcc
        subst hc
        simp only []
        rw [if_pos (by decide)]
        split
        · rename_i rest2
          simp only [List.flatten_cons]
          rw [ih rest2 (by simp at hs; omega)]
          rfl
        · simp [splitLines]
        · simp only [List.flatten_cons]
          rw [ih _ (by simp at hs ⊢; omega)]
          rfl

theorem mem_pyIndent {c : Char} {s : List Char} (h : c ∈ s) : c ∈ pyIndent s := by
  have hs := splitLines_flatten s.length s (le_refl _)
  rw [← hs] at h
  rw [List.mem_flatten] at h
  obtain ⟨chunk, hchunk, hc⟩ := h
  unfold pyIndent
  rw [List.mem_flatten]
  rcases hsp : splitLines s with _ | ⟨l, ls⟩
  · rw [hsp] at hchunk; cases hchunk
  · rw [hsp] at hchunk
    rcases List.mem_cons.mp hchunk with heq | hrest
    · exact ⟨l, by simp [indentLines], heq ▸ hc⟩
    · refine ⟨if chunk == ['\n'] then chunk else ' ' :: ' ' :: chunk, ?_, ?_⟩
      · simp only [indentLines, List.mem_cons]
        right
        exact List.mem_map_of_mem _ hrest
      · split <;> simp [hc]

theorem Chunks_consHead {c : Char} {ls : List (List Char)}
    (hc : isLineBreakChar c = false) (h : Chunks ls) : Chunks (consHead c ls) := by
  cases h with
  | nil =>
    exact Chunks.last [c] (by intro d hd; simp at hd; subst hd; exact hc) (by simp)
  | last body hb hne =>
    refine Chunks.last (c :: body) ?_ (by simp)
    intro d hd
    rcases List.mem_cons.mp hd with rfl | hd
    · exact hc
    · exact hb d hd
  | cons body hb ls hls =>
    show Chunks ((c :: (body ++ ['\n'])) :: ls)
    have : c :: (body ++ ['\n']) = (c :: body) ++ ['\n'] := by simp
    rw [this]
    refine Chunks.cons (c :: body) ?_ ls hls
    intro d hd
    rcases List.mem_cons.mp hd with rfl | hd
    · exact hc
    · exact hb d hd

theorem splitLines_chunks : ∀ s : List Char, onlyNL s → Chunks (splitLines s) := by
  intro s
  induction s with
  | nil => intro _; exact Chunks.nil
  | cons c t ih =>
    intro h
    have ht : onlyNL t := fun d hd hb => h d (by simp [hd]) hb
    by_cases hb : isLineBreakChar c = true
    · have hcn : c = '\n' := h c (by simp) hb
      subst hcn
      rw [splitLines_cons_nl]
      exact Chunks.cons [] (by intro d hd; cases hd) _ (ih ht)
    · rw [splitLines_cons_nb t (by simpa using hb)]
      exact Chunks_consHead (by simpa using hb) (ih ht)

theorem splitLines_of_NBfree {body : List Char} (h : NBfree body) (hne : body ≠ []) :
    splitLines body = [body] := by
  induction body with
  | nil => exact absurd rfl hne
  | cons c t ih =>
    rw [splitLines_cons_nb t (h c (by simp))]
    rcases t with _ | ⟨d, t2⟩
    · rfl
    · rw [ih (fun d hd => h d (by simp [hd])) (by simp)]
      rfl

theorem splitLines_body_nl {body : List Char} (t : List Char) (h : NBfree body) :
    splitLines (body ++ '\n' :: t) = (body ++ ['\n']) :: splitLines t := by
  induction body with
  | nil => simpa using splitLines_cons_nl t
  | cons c b ih =>
    simp only [List.cons_append]
    rw [splitLines_cons_nb _ (h c (by simp)), ih (fun d hd => h d (by simp [hd]))]
    rfl

theorem chunks_flatten_split {ls : List (List Char)} (h : Chunks ls) :
    splitLines ls.flatten = ls := by
  induction h with
  | nil => rfl
  | last body hb hne =>
    simp only [List.flatten_cons, List.flatten_nil, List.append_nil]
    exact splitLines_of_NBfree hb hne
  | cons body hb ls hls ih =>
    simp only [List.flatten_cons]
    have : (body ++ ['\n']) ++ ls.flatten = body ++ '\n' :: ls.flatten := by simp
    rw [this, splitLines_body_nl ls.flatten hb, ih]

theorem chunks_map_indent {ls : List (List Char)} (h : Chunks ls) :
    Chunks (ls.map (fun m => if m == ['\n'] then m else ' ' :: ' ' :: m)) := by
  induction h with
  | nil => exact Chunks.nil
  | last body hb hne =>
    simp only [List.map_cons, List.map_nil]
    have hneq : (body == ['\n']) = false := by
      cases hq : body == ['\n']
      · rfl
      · have : body = ['\n'] := by simpa using hq
        subst this
        have := hb '\n' (by simp)
        simp [isLineBreakChar] at this
    rw [hneq]
    simp only [Bool.false_eq_true, if_false]
    refine Chunks.last _ ?_ (by simp)
    intro d hd
    rcases List.mem_cons.mp hd with rfl | hd
    · decide
    · rcases List.mem_cons.mp hd with rfl | hd
      · decide
      · exact hb d hd
  | cons body hb ls hls ih =>
    simp only [List.map_cons]
    by_cases hbe : body = []
    · subst hbe
      simp only [List.nil_append]
      rw [if_pos (by decide)]
      exact Chunks.cons [] (by intro d hd; cases hd) _ ih
    · have hneq : ((body ++ ['\n']) == ['\n']) = false := by
        cases hq : (body ++ ['\n']) == ['\n']
        · rfl
        · have hq2 : body ++ ['\n'] = ['\n'] := by simpa using hq
          have : body = [] := by
            rcases body with _ | ⟨x, xs⟩
            · rfl
            · simp at hq2
          exact absurd this hbe
      rw [hneq]
      simp only [Bool.false_eq_true, if_false]
      have : ' ' :: ' ' :: (body ++ ['\n']) = (' ' :: ' ' :: body) ++ ['\n'] := by simp
      rw [this]
      refine Chunks.cons _ ?_ _ ih
      intro d hd
      rcases List.mem_cons.mp hd with rfl | hd
      · decide
      · rcases List.mem_cons.mp hd with rfl | hd
        · decide
        · exact hb d hd

theorem chunks_indentLines {ls : List (List Char)} (h : Chunks ls) :
    Chunks (indentLines ls) := by
  cases h with
  | nil => exact Chunks.nil
  | last body hb hne =>
    simp only [indentLines, List.map_nil]
    exact Chunks.last body hb hne
  | cons body hb ls hls =>
    simp only [indentLines]
    exact Chunks.cons body hb _ (chunks_map_indent hls)

/-- The physical lines of an indented rendering are exactly the physical
lines of the un-indented rendering, with two spaces prefixed to every
non-first line that is not a bare `"\n"` (for strings whose only
line-boundary character is `'\n'`). -/
theorem splitLines_pyIndent {s : List Char} (h : onlyNL s) :
    splitLines (pyIndent s) = indentLines (splitLines s) :=
  chunks_flatten_split (chunks_indentLines (splitLines_chunks s h))

/-! ### Formatter branch lemmas (supporting C3, C6, C7) -/

theorem format_term_list_oneline {f : Nat} {vl : List Value} {b : Bool}
    {xs : Value} {att ol : List Char} {ok : Bool}
    (hc : iscomment (Value.list vl) = false)
    (ha : isatom (Value.list vl) = false)
    (hd : decode_attached_comment (Value.list vl) = (xs, att))
    (hr : format_term_oneline (f + 1) (Value.list [xs]) = (ok, ol))
    (hok : ok = true) (hlen : ol.length < SMALL_EXPRESSION_MAX_LENGTH) :
    format_term (f + 1) (Value.list vl) b = ol ++ att := by
  simp only [format_term, hc, ha, Bool.false_eq_true, if_false, hd, hr]
  subst hok
  simp [hlen]

theorem format_term_list_expanded {f : Nat} {vl : List Value} {b : Bool}
    {xs : Value} {att ol : List Char} {ok : Bool}
    (hc : iscomment (Value.list vl) = false)
    (ha : isatom (Value.list vl) = false)
    (hd : decode_attached_comment (Value.list vl) = (xs, att))
    (hr : format_term_oneline (f + 1) (Value.list [xs]) = (ok, ol))
    (hnot : ¬(ok = true ∧ ol.length < SMALL_EXPRESSION_MAX_LENGTH)) :
    format_term (f + 1) (Value.list vl) b =
      pyIndent (expandedBody (format_term f) (childListOf xs) att) := by
  simp only [format_term, hc, ha, Bool.false_eq_true, if_false, hd, hr]
  rcases ok with _ | _
  · simp
  · have hlen : ¬ ol.length < SMALL_EXPRESSION_MAX_LENGTH := fun hl => hnot ⟨rfl, hl⟩
    simp [hlen]

/-! ### Blank-line evaluation lemmas (supporting C5) -/

theorem blankUnit_nl (t : List Char) : blankUnit ('\n' :: t) = some t := rfl

theorem blankUnit_lparen (t : List Char) : blankUnit ('(' :: t) = none := rfl

theorem blankUnit_nil : blankUnit [] = none := rfl

theorem rawCommentP_nl (t : List Char) :
    rawCommentP ('\n' :: t) = (true, '\n' :: t, Value.str []) := rfl

theorem rawCommentP_rp (t : List Char) :
    rawCommentP (')' :: t) = (true, ')' :: t, Value.str []) := rfl

theorem rawCommentP_nil : rawCommentP [] = (true, [], Value.str []) := rfl

theorem blankGo_repl : ∀ (k f : Nat) (t : List Char), k ≤ f →
    blankGo f (List.replicate k '\n' ++ '(' :: t) = (k, '(' :: t) := by
  intro k
  induction k with
  | zero =>
    intro f t _
    rcases f with _ | g
    · rfl
    · simp [blankGo, blankUnit_lparen]
  | succ k ih =>
    intro f t hf
    rcases f with _ | g
    · omega
    · rw [List.replicate_succ]
      simp only [List.cons_append, blankGo, blankUnit_nl]
      rw [ih g t (by omega)]

theorem blanklineP_repl (k : Nat) (t : List Char) (hk : 2 ≤ k) :
    blanklineP (List.replicate k '\n' ++ '(' :: t) =
      (true, '(' :: t, Value.int (k - 2)) := by
  unfold blanklineP
  rw [blankGo_repl k _ t (by simp [List.length_append, List.length_replicate]; omega)]
  simp [hk]

theorem blanklineP_lparen (t : List Char) :
    blanklineP ('(' :: t) = (false, '(' :: t, Value.none) := by
  unfold blanklineP
  have : ('(' :: t).length + 1 = (t.length + 1) + 1 := by simp
  rw [this]
  simp [blankGo, blankUnit_lparen]

theorem blanklineP_nil : blanklineP [] = (false, [], Value.none) := rfl

theorem commentP_lparen (t : List Char) :
    commentP ('(' :: t) = (false, '(' :: t, Value.none) := rfl

theorem commentP_nil : commentP [] = (false, [], Value.none) := rfl

set_option maxHeartbeats 2000000 in
/-- Evaluation of `sexpr` on a single-digit list `(d)` followed by a rest
on which `raw_comment` matches nothing. -/
theorem sexprP_digit (g : Nat) (rest : List Char) (d : Char) (hd : d = '1' ∨ d = '2')
    (hrc : rawCommentP rest = (true, rest, Value.str [])) :
    sexprP (g + 3) ('(' :: d :: ')' :: rest)
      = some (true, rest, Value.list [Value.list [Value.list [Value.str [d]]]]) := by
  rcases hd with rfl | rfl <;>
    simp [sexprP, exprP, seqP, seqGo, choiceP, choiceGo, zeroOrMoreP, zeroOrMoreGo,
      liftP, lparenP, rparenP, atomP, parseAtomWith, skipWs, pyIsSpace, pyWsChars,
      blanklineP, blankGo, blankUnit, commentP, numeralScan, decimalScan, hexScan,
      binScan, stringScan, simpleSymScan, quotedSymScan, strBody, isDigit19, isDigit09,
      isSymChar, hrc, rawCommentP_rp, Value.truthy]

theorem sexprP_nil (g : Nat) : sexprP (g + 1) [] = some (false, [], Value.none) := by
  simp [sexprP, seqP, seqGo, liftP, lparenP, skipWs]

set_option maxHeartbeats 2000000 in
/-- Parse-level evaluation for the blank-line fidelity claim: the program
`(1)`, then `n+1` newlines (i.e. `n` blank lines), then `(2)`. -/
theorem c5_parse (n : Nat) (hn : 1 ≤ n) :
    programP (2 * n + 16)
      ('(' :: '1' :: ')' :: (List.replicate (n + 1) '\n' ++ ['(', '2', ')']))
      = some (true, [],
          Value.list [Value.list [Value.list [Value.list [Value.str ['1']]]],
            Value.int (n - 1),
            Value.list [Value.list [Value.list [Value.str ['2']]]]]) := by
  have hrc0 : rawCommentP (List.replicate (n + 1) '\n' ++ ['(', '2', ')'])
      = (true, List.replicate (n + 1) '\n' ++ ['(', '2', ')'], Value.str []) := by
    rw [List.replicate_succ]
    exact rawCommentP_nl _
  have h1 : sexprP (2 * n + 16)
      ('(' :: '1' :: ')' :: (List.replicate (n + 1) '\n' ++ ['(', '2', ')']))
      = some (true, List.replicate (n + 1) '\n' ++ ['(', '2', ')'],
          Value.list [Value.list [Value.list [Value.str ['1']]]]) := by
    have he : 2 * n + 16 = (2 * n + 13) + 3 := by omega
    rw [he]
    exact sexprP_digit _ _ '1' (Or.inl rfl) hrc0
  have h2 : blanklineP (List.replicate (n + 1) '\n' ++ ['(', '2', ')'])
      = (true, ['(', '2', ')'], Value.int (n - 1)) := by
    have : ('(' : Char) :: ['2', ')'] = ['(', '2', ')'] := rfl
    rw [← this, blanklineP_repl (n + 1) _ (by omega)]
    have : n + 1 - 2 = n - 1 := by omega
    rw [this]
  have h3 : sexprP (2 * n + 16) ['(', '2', ')'] = some (true, [],
      Value.list [Value.list [Value.list [Value.str ['2']]]]) := by
    have he : 2 * n + 16 = (2 * n + 13) + 3 := by omega
    rw [he]
    exact sexprP_digit _ [] '2' (Or.inr rfl) rawCommentP_nil
  have h4 : sexprP (2 * n + 16) [] = some (false, [], Value.none) := by
    have he : 2 * n + 16 = (2 * n + 15) + 1 := by omega
    rw [he]
    exact sexprP_nil _
  simp [programP, oneOrMoreP, zeroOrMoreP, zeroOrMoreGo, choiceP, choiceGo, liftP,
    blanklineP_lparen, commentP_lparen, h1, h2, h3, h4, blanklineP_nil, commentP_nil,
    Value.truthy]

theorem format_term_int (f k : Nat) (b : Bool) :
    format_term (f + 1) (Value.int k) b = List.replicate k '\n' := by
  simp [format_term]

theorem format_term_digitSexpr (f : Nat) (d : Char) (b : Bool) :
    format_term (f + 2) (Value.list [Value.list [Value.list [Value.str [d]]]]) b
      = ['(', d, ')'] := by
  simp [format_term, format_term_oneline, onelineKids, decode_attached_comment,
    childListOf, isatom, iscomment, isblankline, format_atom, Value.asStr, joinSpace,
    SMALL_EXPRESSION_MAX_LENGTH]

theorem c5_format (n : Nat) (hn : 1 ≤ n) (f : Nat) :
    format_terms (f + 2)
      (Value.list [Value.list [Value.list [Value.list [Value.str ['1']]]],
        Value.int (n - 1),
        Value.list [Value.list [Value.list [Value.str ['2']]]]])
      = '(' :: '1' :: ')' :: (List.replicate (n + 1) '\n' ++ ['(', '2', ')', '\n']) := by
  unfold format_terms
  simp only [List.map_cons, List.map_nil, List.flatten_cons, List.flatten_nil]
  rw [format_term_digitSexpr f '1' false, format_term_digitSexpr f '2' false]
  have hint : format_term (f + 2) (Value.int (n - 1)) false
      = List.replicate (n - 1) '\n' := by
    have : f + 2 = (f + 1) + 1 := rfl
    rw [this, format_term_int]
  rw [hint]
  have hrepl : List.replicate (n + 1) '\n'
      = '\n' :: (List.replicate (n - 1) '\n' ++ ['\n']) := by
    have h1 : n + 1 = 1 + ((n - 1) + 1) := by omega
    rw [h1, List.replicate_add, List.replicate_add]
    simp
  rw [hrepl]
  simp

theorem pyIndent_cons_nl (t : List Char) :
    pyIndent ('\n' :: t) =
      '\n' :: ((splitLines t).map
        (fun m => if m == ['\n'] then m else ' ' :: ' ' :: m)).flatten := by
  unfold pyIndent
  rw [splitLines_cons_nl]
  rfl

theorem expandedBody_comment (g : Value → Bool → List Char) (x0 : Value)
    (xr : List Value) (att : List Char) (hcom : iscomment x0 = true) :
    ∃ t, expandedBody g (x0 :: xr) att = '(' :: '\n' :: (g x0 true ++ '\n' :: t) := by
  cases xr with
  | nil =>
    refine ⟨')' :: att, ?_⟩
    simp [expandedBody, expLoop, expChild, hcom]
  | cons x1 xr =>
    refine ⟨expLoop g (x1 :: xr) false ++ ')' :: att, ?_⟩
    simp [expandedBody, expLoop, expChild, hcom]

theorem expandedBody_atom (g : Value → Bool → List Char) (x0 : Value)
    (xr : List Value) (att : List Char) (hcom : iscomment x0 = false)
    (hatom : isatom x0 = true) :
    ∃ t, expandedBody g (x0 :: xr) att = '(' :: (g x0 true ++ t) := by
  cases xr with
  | nil =>
    refine ⟨(if (!true || iscomment x0 || ((isatom x0 || issexpr x0) && hasLen2 x0))
      then ['\n'] else []) ++ ')' :: att, ?_⟩
    simp [expandedBody, expLoop, expChild, hcom, hatom]
  | cons x1 xr =>
    refine ⟨['\n'] ++ expLoop g (x1 :: xr) false ++ ')' :: att, ?_⟩
    simp [expandedBody, expLoop, expChild, hcom, hatom]

theorem expandedBody_other (g : Value → Bool → List Char) (x0 : Value)
    (xr : List Value) (att : List Char) (hcom : iscomment x0 = false)
    (hatom : isatom x0 = false) :
    ∃ t, expandedBody g (x0 :: xr) att = '(' :: '\n' :: t := by
  refine ⟨expLoop g (x0 :: xr) true ++ ')' :: att, ?_⟩
  simp [expandedBody, hcom, hatom]

theorem pyIndent_hug {a : List Char} (t : List Char) (hnb : NBfree a) :
    pyIndent ('(' :: (a ++ t)) = '(' :: (a ++ pyIndent t) := by
  rw [pyIndent_cons_nb _ (by decide), pyIndent_append_nb t hnb]

theorem pyIndent_comment_line {cr : List Char} (t : List Char) (hnb : NBfree cr)
    (hne : cr ≠ []) :
    pyIndent ('(' :: '\n' :: (cr ++ '\n' :: t)) =
      '(' :: '\n' :: ' ' :: ' ' :: (cr ++ '\n' ::
        ((splitLines t).map
          (fun m => if m == ['\n'] then m else ' ' :: ' ' :: m)).flatten) := by
  rw [pyIndent_cons_nb _ (by decide), pyIndent_cons_nl, splitLines_body_nl t hnb]
  have hneq : ((cr ++ ['\n']) == ['\n']) = false := by
    cases hq : (cr ++ ['\n']) == ['\n']
    · rfl
    · have hq2 : cr ++ ['\n'] = ['\n'] := by simpa using hq
      rcases cr with _ | ⟨x, xs⟩
      · exact absurd rfl hne
      · simp at hq2
  simp [hneq, hne]

theorem pyIndent_open_nl (t : List Char) :
    ∃ u, pyIndent ('(' :: '\n' :: t) = '(' :: '\n' :: u := by
  rw [pyIndent_cons_nb _ (by decide), pyIndent_cons_nl]
  exact ⟨_, rfl⟩

/-! ## The claims -/

/-- C1, counterexample: idempotence fails as stated.  On `s = "\n\n"` the
formatter succeeds with output `"\n"`, but a second application fails: a
single newline is not a `blankline` (which needs two), so the Program
grammar makes no progress and `format_lisp` raises.  Hence there is an
input on which `format_lisp` succeeds while `format_lisp ∘ format_lisp`
does not. -/
theorem c1_counterexample :
    format_lisp (chars "\n\n") = Except.ok (chars "\n") ∧
    format_lisp (chars "\n") = Except.error (chars "") := ⟨rfl, rfl⟩

set_option maxHeartbeats 1000000 in
/-- C1, amended: idempotence holds on the specification's scenario corpus:
for each scenario input, `format_lisp` succeeds and applying it again to
the output reproduces the output exactly. -/
theorem c1_idempotence_on_corpus :
    (format_lisp (chars "(simple x)") = Except.ok (chars "(simple x)\n") ∧
     format_lisp (chars "(simple x)\n") = Except.ok (chars "(simple x)\n")) ∧
    (format_lisp (chars "(1\n;comment\n)")
        = Except.ok (chars "(1\n  ;comment\n  )\n") ∧
     format_lisp (chars "(1\n  ;comment\n  )\n")
        = Except.ok (chars "(1\n  ;comment\n  )\n")) ∧
    (format_lisp (chars "(1 ; comment\n2)")
        = Except.ok (chars "(1 ; comment\n  2)\n") ∧
     format_lisp (chars "(1 ; comment\n  2)\n")
        = Except.ok (chars "(1 ; comment\n  2)\n")) ∧
    (format_lisp (chars "(let ((x y) (y x)))")
        = Except.ok (chars "(let ((x y) (y x)))\n") ∧
     format_lisp (chars "(let ((x y) (y x)))\n")
        = Except.ok (chars "(let ((x y) (y x)))\n")) ∧
    (format_lisp (chars "(1)\n\n\n(2)") = Except.ok (chars "(1)\n\n\n(2)\n") ∧
     format_lisp (chars "(1)\n\n\n(2)\n") = Except.ok (chars "(1)\n\n\n(2)\n")) :=
  ⟨⟨rfl, rfl⟩, ⟨rfl, rfl⟩, ⟨rfl, rfl⟩, ⟨rfl, rfl⟩, ⟨rfl, rfl⟩⟩

/-- C2, counterexample: content preservation fails as stated.  On
`s = "\n\n"` the parse yields the token sequence `[blank 0]` and
formatting succeeds with `"\n"`, but re-parsing `"\n"` with the Program
grammar fails, so no token sequence at all is recoverable from the
output. -/
theorem c2_counterexample :
    tokensOfInput (chars "\n\n") = some [Tok.blankT 0] ∧
    format_lisp (chars "\n\n") = Except.ok (chars "\n") ∧
    tokensOfInput (chars "\n") = Option.none := ⟨by decide, rfl, by decide⟩


set_option maxHeartbeats 1000000 in
/-- C2, amended: content preservation holds on the specification's scenario
corpus: for each scenario input, the token sequence (atom texts, comment
texts, blank-line counts) recoverable from the formatted output equals the
one recoverable from the input. -/
theorem c2_content_preservation_on_corpus :
    (tokensOfInput (chars "(simple x)")
        = some [Tok.atomT (chars "simple"), Tok.atomT (chars "x")] ∧
     tokensOfInput (chars "(simple x)\n")
        = some [Tok.atomT (chars "simple"), Tok.atomT (chars "x")]) ∧
    (tokensOfInput (chars "(1\n;comment\n)")
        = some [Tok.atomT (chars "1"), Tok.commentT (chars "comment")] ∧
     tokensOfInput (chars "(1\n  ;comment\n  )\n")
        = some [Tok.atomT (chars "1"), Tok.commentT (chars "comment")]) ∧
    (tokensOfInput (chars "(1 ; comment\n2)")
        = some [Tok.atomT (chars "1"), Tok.commentT (chars " ; comment"),
            Tok.atomT (chars "2")] ∧
     tokensOfInput (chars "(1 ; comment\n  2)\n")
        = some [Tok.atomT (chars "1"), Tok.commentT (chars " ; comment"),
            Tok.atomT (chars "2")]) ∧
    (tokensOfInput (chars "(let ((x y) (y x)))")
        = some [Tok.atomT (chars "let"), Tok.atomT (chars "x"),
            Tok.atomT (chars "y"), Tok.atomT (chars "y"),
            Tok.atomT (chars "x")] ∧
     tokensOfInput (chars "(let ((x y) (y x)))\n")
        = some [Tok.atomT (chars "let"), Tok.atomT (chars "x"),
            Tok.atomT (chars "y"), Tok.atomT (chars "y"),
            Tok.atomT (chars "x")]) ∧
    (tokensOfInput (chars "(1)\n\n\n(2)")
        = some [Tok.atomT (chars "1"), Tok.blankT 1, Tok.atomT (chars "2")] ∧
     tokensOfInput (chars "(1)\n\n\n(2)\n")
        = some [Tok.atomT (chars "1"), Tok.blankT 1, Tok.atomT (chars "2")]) :=
  ⟨⟨by decide, by decide⟩, ⟨by decide, by decide⟩, ⟨by decide, by decide⟩,
   ⟨by decide, by decide⟩, ⟨by decide, by decide⟩⟩

set_option maxRecDepth 8192 in
/-- C3, counterexample: the column discipline is violated on physical
output lines.  The input `(` + 78 `a`s + `)` is a list whose one-line
rendering is exactly 80 characters; the strict `< 80` test fails, so the
expanded path is taken, but for this single-child list the expanded
rendering is the same 80-character single line: the output renders a list
on one physical line occupying 80 (not fewer than 80) characters. -/
theorem c3_counterexample :
    format_lisp ('(' :: List.replicate 78 'a' ++ [')'])
      = Except.ok (('(' :: List.replicate 78 'a' ++ [')']) ++ ['\n']) ∧
    ('(' :: List.replicate 78 'a' ++ [')']).length = 80 ∧
    '\n' ∉ ('(' :: List.replicate 78 'a' ++ [')']) :=
  ⟨rfl, by decide, by decide⟩

/-- C3, amended: the one-line/expanded decision of `format_term` is exactly
the strict comparison `length < 80` on the joined one-line rendering: under
80 the joined rendering (plus the attached comment) is returned verbatim;
at 80 or above (or when one-line rendering is impossible) the expanded
renderer runs, and it produces a rendering containing a line break whenever
the list has at least two children (a single-child list may still render on
one over-long physical line, as the counterexample shows). -/
theorem c3_column_discipline : ∀ (f : Nat) (vl : List Value) (b : Bool) (xs : Value)
    (att ol : List Char) (ok : Bool),
    iscomment (Value.list vl) = false →
    isatom (Value.list vl) = false →
    decode_attached_comment (Value.list vl) = (xs, att) →
    format_term_oneline (f + 1) (Value.list [xs]) = (ok, ol) →
    ((ok = true ∧ ol.length < SMALL_EXPRESSION_MAX_LENGTH →
        format_term (f + 1) (Value.list vl) b = ol ++ att) ∧
     (¬(ok = true ∧ ol.length < SMALL_EXPRESSION_MAX_LENGTH) →
        format_term (f + 1) (Value.list vl) b =
          pyIndent (expandedBody (format_term f) (childListOf xs) att)) ∧
     (ok = true → SMALL_EXPRESSION_MAX_LENGTH ≤ ol.length →
        ∀ x0 x1 xr, childListOf xs = x0 :: x1 :: xr →
        '\n' ∈ format_term (f + 1) (Value.list vl) b)) := by
  intro f vl b xs att ol ok hc ha hd hr
  refine ⟨fun h => format_term_list_oneline hc ha hd hr h.1 h.2, ?_, ?_⟩
  · intro hnot
    exact format_term_list_expanded hc ha hd hr hnot
  · intro hok hlen x0 x1 xr hkids
    have hnot : ¬(ok = true ∧ ol.length < SMALL_EXPRESSION_MAX_LENGTH) := by
      rintro ⟨_, hl⟩
      omega
    rw [format_term_list_expanded hc ha hd hr hnot, hkids]
    apply mem_pyIndent
    unfold expandedBody
    rw [List.mem_append]
    left
    rw [List.mem_append]
    right
    unfold expLoop
    rw [List.mem_append]
    left
    unfold expChild
    rw [List.mem_append]
    right
    simp

set_option maxHeartbeats 1000000 in
set_option maxRecDepth 8192 in
/-- C3, witness: a two-child list of two 50-character atoms (one-line
rendering 103 characters) is rendered with a line break. -/
theorem c3_column_discipline_witness :
    '\n' ∈ format_term 4 (Value.list [Value.list [
      Value.list [Value.str (chars "aaaaaaaaaaaaaaaaaaaaaaaaaaaaaaaaaaaaaaaaaaaaaaaaaa")],
      Value.list [Value.str (chars "bbbbbbbbbbbbbbbbbbbbbbbbbbbbbbbbbbbbbbbbbbbbbbbbbb")]]])
      false := by
  have h := (c3_column_discipline 3
    [Value.list [
      Value.list [Value.str (chars "aaaaaaaaaaaaaaaaaaaaaaaaaaaaaaaaaaaaaaaaaaaaaaaaaa")],
      Value.list [Value.str (chars "bbbbbbbbbbbbbbbbbbbbbbbbbbbbbbbbbbbbbbbbbbbbbbbbbb")]]]
    false
    (Value.list [
      Value.list [Value.str (chars "aaaaaaaaaaaaaaaaaaaaaaaaaaaaaaaaaaaaaaaaaaaaaaaaaa")],
      Value.list [Value.str (chars "bbbbbbbbbbbbbbbbbbbbbbbbbbbbbbbbbbbbbbbbbbbbbbbbbb")]])
    []
    (format_term_oneline 4 (Value.list [Value.list [
      Value.list [Value.str (chars "aaaaaaaaaaaaaaaaaaaaaaaaaaaaaaaaaaaaaaaaaaaaaaaaaa")],
      Value.list [Value.str (chars "bbbbbbbbbbbbbbbbbbbbbbbbbbbbbbbbbbbbbbbbbbbbbbbbbb")]]])).2
    (format_term_oneline 4 (Value.list [Value.list [
      Value.list [Value.str (chars "aaaaaaaaaaaaaaaaaaaaaaaaaaaaaaaaaaaaaaaaaaaaaaaaaa")],
      Value.list [Value.str (chars "bbbbbbbbbbbbbbbbbbbbbbbbbbbbbbbbbbbbbbbbbbbbbbbbbb")]]])).1
    rfl rfl rfl rfl).2.2
  exact h (by decide) (by decide) _ _ [] rfl

/-- C4: the driver returns a formatted string exactly when the Program
grammar succeeds (consuming at least one term — the result value is a
non-empty list) and the unconsumed remainder is empty or all whitespace;
otherwise it produces exactly one error carrying the whitespace-trimmed
remainder, and nothing on the success channel. -/
theorem c4_driver : ∀ s : List Char,
    ((∃ out, format_lisp s = Except.ok out) ↔
      ((parseProgram s).1 = true ∧
       ((parseProgram s).2.1 = [] ∨ (parseProgram s).2.1.all pyIsSpace = true) ∧
       ∃ ts, (parseProgram s).2.2 = Value.list ts ∧ ts ≠ [])) ∧
    (¬((parseProgram s).1 = true ∧
       ((parseProgram s).2.1 = [] ∨ (parseProgram s).2.1.all pyIsSpace = true)) →
      format_lisp s = Except.error (pyStrip (parseProgram s).2.1)) := by
  intro s
  have hcond : parseOk (parseProgram s) = true ↔
      ((parseProgram s).1 = true ∧
       ((parseProgram s).2.1 = [] ∨ (parseProgram s).2.1.all pyIsSpace = true)) := by
    constructor
    · intro h
      unfold parseOk at h
      simp only [Bool.not_eq_true', Bool.or_eq_false_iff, Bool.and_eq_false_iff,
        Bool.not_eq_false, Bool.not_eq_true, Bool.not_eq_false'] at h
      obtain ⟨⟨h1, h2⟩, _⟩ := h
      refine ⟨h1, ?_⟩
      rcases h2 with h2 | h2
      · left
        simpa [List.isEmpty_iff] using h2
      · right
        exact h2
    · rintro ⟨h1, h2⟩
      obtain ⟨ts, hts, hne⟩ := parseProgram_success_shape h1
      unfold parseOk
      rw [h1, hts]
      have hv : (Value.list ts).isVNone = false := rfl
      rw [hv]
      rcases h2 with h2 | h2
      · rw [h2]
        simp
      · rw [h2]
        simp
  constructor
  · constructor
    · rintro ⟨out, hout⟩
      unfold format_lisp at hout
      simp only [] at hout
      by_cases hok : parseOk (parseProgram s) = true
      · obtain ⟨h1, h2⟩ := hcond.mp hok
        exact ⟨h1, h2, parseProgram_success_shape h1⟩
      · rw [if_neg (by simpa using hok)] at hout
        cases hout
    · rintro ⟨h1, h2, _⟩
      have hok := hcond.mpr ⟨h1, h2⟩
      unfold format_lisp
      simp only []
      rw [if_pos hok]
      exact ⟨_, rfl⟩
  · intro hn
    have hok : parseOk (parseProgram s) = false := by
      cases hq : parseOk (parseProgram s)
      · rfl
      · exact absurd (hcond.mp hq) hn
    unfold format_lisp
    simp only []
    rw [if_neg (by simp [hok])]

/-- C4, witness: the unterminated input `(` is rejected with the trimmed
leftover `(` as payload. -/
theorem c4_driver_witness : format_lisp (chars "(") = Except.error (chars "(") :=
  (c4_driver (chars "(")).2 (by decide)

/-- C5: blank-line fidelity between top-level terms: for every `N ≥ 1`, a
run of `N` blank source lines between the terms `(1)` and `(2)` (i.e.
`N + 1` consecutive newlines) is reproduced as exactly `N` blank lines in
the output — the formatted text is the input with the final newline
appended and the interior spacing unchanged. -/
theorem c5_blank_line_fidelity (n : Nat) (hn : 1 ≤ n) :
    format_lisp (chars "(1)" ++ List.replicate (n + 1) '\n' ++ chars "(2)")
      = Except.ok (chars "(1)" ++ List.replicate (n + 1) '\n' ++ chars "(2)\n") := by
  have hinp : chars "(1)" ++ List.replicate (n + 1) '\n' ++ chars "(2)"
      = '(' :: '1' :: ')' :: (List.replicate (n + 1) '\n' ++ ['(', '2', ')']) := by
    simp [chars]
  have hout : chars "(1)" ++ List.replicate (n + 1) '\n' ++ chars "(2)\n"
      = '(' :: '1' :: ')' :: (List.replicate (n + 1) '\n' ++ ['(', '2', ')', '\n']) := by
    simp [chars]
  rw [hinp, hout]
  have hlen : ('(' :: '1' :: ')' :: (List.replicate (n + 1) '\n' ++ ['(', '2', ')'])).length
      = n + 7 := by simp
  have hfuel : driverFuel ('(' :: '1' :: ')' ::
      (List.replicate (n + 1) '\n' ++ ['(', '2', ')'])) = 2 * n + 16 := by
    unfold driverFuel
    rw [hlen]
    omega
  unfold format_lisp parseProgram
  rw [hfuel, c5_parse n hn]
  simp only [Option.getD_some]
  rw [show (2 : Nat) * n + 16 = (2 * n + 14) + 2 from by omega]
  rw [c5_format n hn (2 * n + 14)]
  simp [parseOk, Value.isVNone]

/-- C5, witness: two blank lines between `(1)` and `(2)` survive
formatting. -/
theorem c5_blank_line_fidelity_witness :
    1 ≤ 2 ∧
    format_lisp (chars "(1)" ++ List.replicate 3 '\n' ++ chars "(2)")
      = Except.ok (chars "(1)" ++ List.replicate 3 '\n' ++ chars "(2)\n") :=
  ⟨by omega, c5_blank_line_fidelity 2 (by omega)⟩

/-- C6: the expanded-form opening rule: when a list is rendered in expanded
form, the rendering is the indentation pass applied to a body that places a
line break immediately after the opening parenthesis unless the first child
is a (non-comment) atom — an atom first child hugs the parenthesis, a
comment first child is placed on its own (indented) line right after the
opening parenthesis, and any other first child is preceded by a line
break. -/
theorem c6_expanded_opening_rule : ∀ (f : Nat) (vl : List Value) (b : Bool)
    (xs : Value) (att ol : List Char) (ok : Bool) (x0 : Value) (xr : List Value),
    iscomment (Value.list vl) = false →
    isatom (Value.list vl) = false →
    decode_attached_comment (Value.list vl) = (xs, att) →
    format_term_oneline (f + 1) (Value.list [xs]) = (ok, ol) →
    ¬(ok = true ∧ ol.length < SMALL_EXPRESSION_MAX_LENGTH) →
    childListOf xs = x0 :: xr →
    (format_term (f + 1) (Value.list vl) b =
        pyIndent (expandedBody (format_term f) (x0 :: xr) att)) ∧
    (iscomment x0 = true → NBfree (format_term f x0 true) →
        format_term f x0 true ≠ [] →
        ∃ u, format_term (f + 1) (Value.list vl) b =
          '(' :: '\n' :: ' ' :: ' ' :: (format_term f x0 true ++ '\n' :: u)) ∧
    (iscomment x0 = false → isatom x0 = true → NBfree (format_term f x0 true) →
        ∃ u, format_term (f + 1) (Value.list vl) b =
          '(' :: (format_term f x0 true ++ u)) ∧
    (iscomment x0 = false → isatom x0 = false →
        ∃ u, format_term (f + 1) (Value.list vl) b = '(' :: '\n' :: u) := by
  intro f vl b xs att ol ok x0 xr hc ha hd hr hnot hkids
  have hmain : format_term (f + 1) (Value.list vl) b =
      pyIndent (expandedBody (format_term f) (x0 :: xr) att) := by
    rw [format_term_list_expanded hc ha hd hr hnot, hkids]
  refine ⟨hmain, ?_, ?_, ?_⟩
  · intro hcom hnb hne
    obtain ⟨t, ht⟩ := expandedBody_comment (format_term f) x0 xr att hcom
    refine ⟨((splitLines t).map
      (fun m => if m == ['\n'] then m else ' ' :: ' ' :: m)).flatten, ?_⟩
    rw [hmain, ht, pyIndent_comment_line t hnb hne]
  · intro hcom hatom hnb
    obtain ⟨t, ht⟩ := expandedBody_atom (format_term f) x0 xr att hcom hatom
    refine ⟨pyIndent t, ?_⟩
    rw [hmain, ht, pyIndent_hug t hnb]
  · intro hcom hatom
    obtain ⟨t, ht⟩ := expandedBody_other (format_term f) x0 xr att hcom hatom
    obtain ⟨u, hu⟩ := pyIndent_open_nl t
    exact ⟨u, by rw [hmain, ht, hu]⟩

set_option maxHeartbeats 1000000 in
set_option maxRecDepth 8192 in
/-- C6, witness: a two-child list of two 50-character atoms expands with
the first atom hugging the opening parenthesis. -/
theorem c6_expanded_opening_rule_witness :
    ∃ u, format_term 4 (Value.list [Value.list [
      Value.list [Value.str (chars "aaaaaaaaaaaaaaaaaaaaaabbbbbbbbbbbbbbbbbbbbbbbbbbbbbb")],
      Value.list [Value.str (chars "cccccccccccccccccccccccccccccccccccccccccccccccccc")]]])
      false = '(' :: (format_term 3
        (Value.list [Value.str (chars "aaaaaaaaaaaaaaaaaaaaaabbbbbbbbbbbbbbbbbbbbbbbbbbbbbb")])
        true ++ u) := by
  have h := (c6_expanded_opening_rule 3
    [Value.list [
      Value.list [Value.str (chars "aaaaaaaaaaaaaaaaaaaaaabbbbbbbbbbbbbbbbbbbbbbbbbbbbbb")],
      Value.list [Value.str (chars "cccccccccccccccccccccccccccccccccccccccccccccccccc")]]]
    false
    (Value.list [
      Value.list [Value.str (chars "aaaaaaaaaaaaaaaaaaaaaabbbbbbbbbbbbbbbbbbbbbbbbbbbbbb")],
      Value.list [Value.str (chars "cccccccccccccccccccccccccccccccccccccccccccccccccc")]])
    []
    (format_term_oneline 4 (Value.list [Value.list [
      Value.list [Value.str (chars "aaaaaaaaaaaaaaaaaaaaaabbbbbbbbbbbbbbbbbbbbbbbbbbbbbb")],
      Value.list [Value.str (chars "cccccccccccccccccccccccccccccccccccccccccccccccccc")]]])).2
    (format_term_oneline 4 (Value.list [Value.list [
      Value.list [Value.str (chars "aaaaaaaaaaaaaaaaaaaaaabbbbbbbbbbbbbbbbbbbbbbbbbbbbbb")],
      Value.list [Value.str (chars "cccccccccccccccccccccccccccccccccccccccccccccccccc")]]])).1
    (Value.list [Value.str (chars "aaaaaaaaaaaaaaaaaaaaaabbbbbbbbbbbbbbbbbbbbbbbbbbbbbb")])
    [Value.list [Value.str (chars "cccccccccccccccccccccccccccccccccccccccccccccccccc")]]
    rfl rfl rfl rfl (by decide) rfl).2.2.1
  exact h rfl rfl (by unfold NBfree; decide)

/-- C7, counterexample: in `(1\n\n\n2)` the blank lines inside the list are
physical lines of the expanded rendering that receive no two-space prefix —
the line `"\n"` is kept verbatim by the indentation pass, refuting the
claim that EVERY non-first physical line is prefixed with one indent
unit. -/
theorem c7_counterexample :
    format_lisp (chars "(1\n\n\n2)") = Except.ok (chars "(1\n\n\n  2)\n") ∧
    splitLines (chars "(1\n\n\n  2)\n") =
      [chars "(1\n", chars "\n", chars "\n", chars "  2)\n"] ∧
    (chars "\n").take 2 ≠ [' ', ' '] :=
  ⟨rfl, by decide, by decide⟩

/-- C7: indentation rule, amended to except blank lines: an expanded list
rendering is the indentation pass applied to the assembled body, and on any
text whose only line-boundary character is `'\n'` that pass keeps the first
physical line unchanged and prefixes every later physical line with exactly
one indent unit (two spaces) — except lines that consist of a lone newline,
which are kept verbatim. -/
theorem c7_indentation_rule :
    (∀ (f : Nat) (vl : List Value) (b : Bool) (xs : Value)
        (att ol : List Char) (ok : Bool),
      iscomment (Value.list vl) = false →
      isatom (Value.list vl) = false →
      decode_attached_comment (Value.list vl) = (xs, att) →
      format_term_oneline (f + 1) (Value.list [xs]) = (ok, ol) →
      ¬(ok = true ∧ ol.length < SMALL_EXPRESSION_MAX_LENGTH) →
      format_term (f + 1) (Value.list vl) b =
        pyIndent (expandedBody (format_term f) (childListOf xs) att)) ∧
    (∀ (s l : List Char) (ls : List (List Char)),
      onlyNL s → splitLines s = l :: ls →
      splitLines (pyIndent s) =
        l :: ls.map (fun m => if m == ['\n'] then m else ' ' :: ' ' :: m)) := by
  constructor
  · intro f vl b xs att ol ok hc ha hd hr hnot
    exact format_term_list_expanded hc ha hd hr hnot
  · intro s l ls h hsplit
    rw [splitLines_pyIndent h, hsplit]
    rfl

/-- C7, witness: the expanded-branch equation at a concrete three-child
list (atom, blank-line marker, atom), and the indentation pass on a
concrete four-line text: later lines gain two spaces, the lone-newline
line stays verbatim. -/
theorem c7_indentation_rule_witness :
    (format_term 4 (Value.list [Value.list [Value.list [Value.str (chars "1")],
        Value.int 1, Value.list [Value.str (chars "2")]]]) false =
      pyIndent (expandedBody (format_term 3)
        [Value.list [Value.str (chars "1")], Value.int 1,
         Value.list [Value.str (chars "2")]] [])) ∧
    splitLines (pyIndent (chars "ab\ncd\n\ne")) =
      [chars "ab\n", chars "  cd\n", chars "\n", chars "  e"] := by
  constructor
  · exact c7_indentation_rule.1 3
      [Value.list [Value.list [Value.str (chars "1")], Value.int 1,
        Value.list [Value.str (chars "2")]]]
      false
      (Value.list [Value.list [Value.str (chars "1")], Value.int 1,
        Value.list [Value.str (chars "2")]])
      [] (chars "") false rfl rfl rfl rfl (by decide)
  · have h := c7_indentation_rule.2 (chars "ab\ncd\n\ne") (chars "ab\n")
      [chars "cd\n", chars "\n", chars "e"]
      (by unfold onlyNL; decide) (by decide)
    rw [h]
    rfl

/-- C8: repetition terminates: every alternative reachable under
repetition — blank line, comment, s-expression, atom, and hence the Expr
choice — strictly consumes input on success, and with fuel at least
`2·|s| + 2` both the Expr parser and the whole Program parser return a
result (the fuel never runs out), i.e. the repetition loops terminate on
every input. -/
theorem c8_repetition_terminates :
    (Consuming (liftP blanklineP) ∧ Consuming (liftP commentP) ∧
     Consuming atomP ∧ (∀ f, Consuming (sexprP f)) ∧
     (∀ f, Consuming (exprP f))) ∧
    (∀ (f : Nat) (s : List Char), 2 * s.length + 2 ≤ f →
      (exprP f s).isSome ∧ (programP f s).isSome) :=
  ⟨⟨blanklineF_consume, commentF_consume, atomP_consume, sexprP_consume,
    exprP_consume⟩,
   fun f s h => ⟨(gramTotal f).2 s h, programTotal f s h⟩⟩

/-- C8, witness: with fuel 20 the Expr and Program parsers answer on the
8-character input `(x y z)`. -/
theorem c8_repetition_terminates_witness :
    2 * (chars "(x y z)").length + 2 ≤ 20 ∧
    (exprP 20 (chars "(x y z)")).isSome ∧
    (programP 20 (chars "(x y z)")).isSome :=
  ⟨by decide,
   (c8_repetition_terminates.2 20 (chars "(x y z)") (by decide)).1,
   (c8_repetition_terminates.2 20 (chars "(x y z)") (by decide)).2⟩

/-- C9, counterexample: the `choice` combinator as written threads the
cursor left by a FAILED alternative into the next attempt instead of
retrying from the original cursor: after the artificial failing step
`dropOneFail` consumes one character, the second alternative `echoCursor`
is applied to `"b"`, not to the original `"ab"` as the spec-modelled
choice does. -/
theorem c9_counterexample :
    choiceP [dropOneFail, echoCursor] (chars "ab")
      = some (true, chars "b", Value.str (chars "b")) ∧
    choiceSpecP [dropOneFail, echoCursor] (chars "ab")
      = some (true, chars "ab", Value.str (chars "ab")) ∧
    chars "b" ≠ chars "ab" :=
  ⟨rfl, rfl, by decide⟩

/-- C9: choice semantics, amended to restoring alternatives: when every
alternative restores the cursor on failure, `choice` coincides with the
spec-described combinator (each attempt against the original cursor, first
success returned); `choice` itself restores the cursor when all
alternatives fail; and every alternative of the grammar (blank line,
comment, s-expression, atom) is restoring, so the discrepancy exhibited by
the counterexample never arises in this program. -/
theorem c9_choice_semantics :
    (∀ ps : List FParser, (∀ p ∈ ps, Restoring p) →
      ∀ s, choiceP ps s = choiceSpecP ps s) ∧
    (∀ qs : List FParser, Restoring (choiceP qs)) ∧
    Restoring (liftP blanklineP) ∧ Restoring (liftP commentP) ∧
    (∀ f, Restoring (sexprP f)) ∧ Restoring atomP :=
  ⟨fun _ h s => choiceP_eq_spec h s, choiceP_restore, blanklineF_restore,
   commentF_restore, sexprP_restore, atomP_restore⟩

/-- C9, witness: on the restoring singleton alternative list holding the
comment parser, `choice` and the spec-modelled choice agree at a concrete
cursor. -/
theorem c9_choice_semantics_witness :
    choiceP [liftP commentP] (chars ";c")
      = choiceSpecP [liftP commentP] (chars ";c") :=
  c9_choice_semantics.1 [liftP commentP]
    (by
      intro p hp
      simp only [List.mem_cons, List.not_mem_nil, or_false] at hp
      subst hp
      exact commentF_restore)
    (chars ";c")

/-- C10: the decimal alternative is unreachable: the atom parser equals
the atom parser with the decimal alternative removed on every input, and
concretely `1.5` is scanned as the atom `1` with leftover `.5`, which then
scans as the single symbol atom `.5` — never as one decimal atom. -/
theorem c10_decimal_unreachable :
    (∀ s, atomP s = atomNoDecimalP s) ∧
    atomP (chars "1.5")
      = some (true, chars ".5", Value.list [Value.str (chars "1")]) ∧
    atomP (chars ".5")
      = some (true, [], Value.list [Value.str (chars ".5")]) :=
  ⟨atomP_eq_noDecimal, rfl, rfl⟩
